import Mathlib

/- Verification development for the wellspring-shield-sync verification ledger:
   the canonical serializer (`stableStringify` in src/lib/crypto/stableHash.ts),
   the SHA-256 payload anchoring and the verifier state machine
   (`useVerifyRecord` hook), the two ledger write paths (`savePrediction` in
   PatientConsents.tsx / PatientPrediction, `saveDraft` in
   DoctorTelemedicine.tsx), the ledger store constraints (supabase
   migrations) and the `request_patient_consent` RPC.

   The SHA-256 digest itself is treated as an abstract parameter
   `h : String → String`; the spec's collision-freedom assumption appears as a
   `Function.Injective h` hypothesis where a theorem needs it. -/

namespace WellspringShield

/-- Kind of a non-finite JavaScript number. These exist as `number` values
(`NaN`, `Infinity`, `-Infinity`) but are not representable in JSON;
`JSON.stringify` serializes them as `null`. -/
inductive NonFinite where
  | nan
  | posInf
  | negInf

/-- Model of a JavaScript `number`. A finite double is represented by its
canonical ECMAScript decimal rendering (the shortest round-trip string that
`JSON.stringify` emits for it). Distinct finite doubles have distinct
canonical renderings, so the rendering is a faithful identity for the value. -/
inductive JsNum where
  | finite (render : String)
  | nonFinite (k : NonFinite)

/-- Model of a JavaScript value tree that reaches `JSON.stringify` in the
ledger code paths: null, booleans, numbers, strings, arrays, and plain
objects. Object fields are listed in the object's own-property enumeration
order, which is the order `JSON.stringify` visits them. (For a genuine
JavaScript object that order always has array-index keys before all other
keys; the payload builders in this code use only non-index identifier keys,
for which enumeration order is property-creation order.) -/
inductive Json where
  | null
  | bool (b : Bool)
  | num (n : JsNum)
  | str (s : String)
  | arr (elems : List Json)
  | obj (fields : List (String × Json))

/-- Hex digit used by `\u00XX` escapes (lowercase, as ECMAScript emits). -/
def hexDigit (n : Nat) : Char :=
  if n < 10 then Char.ofNat (48 + n) else Char.ofNat (87 + n)

/-- Escape one character of a string body the way `JSON.stringify` does
(ECMAScript `QuoteJSONString`): double quote and backslash get a preceding
backslash, control characters use the two-character escapes or `\u00XX`. -/
def quoteChar (c : Char) : List Char :=
  if c = '"' then ['\\', '"']
  else if c = '\\' then ['\\', '\\']
  else if c = '\x08' then ['\\', 'b']
  else if c = '\t' then ['\\', 't']
  else if c = '\n' then ['\\', 'n']
  else if c = '\x0c' then ['\\', 'f']
  else if c = '\r' then ['\\', 'r']
  else if c.toNat < 32 then
    ['\\', 'u', '0', '0', hexDigit (c.toNat / 16), hexDigit (c.toNat % 16)]
  else [c]

/-- Escape every character of a string body, in order. -/
def quoteBody : List Char → List Char
  | [] => []
  | c :: cs => quoteChar c ++ quoteBody cs

/-- Emit a JSON string literal: opening quote, escaped body, closing quote. -/
def quoteStr (s : String) : List Char := '"' :: quoteBody s.data ++ ['"']

mutual
/-- Emit a value exactly as `JSON.stringify(value)` (no indent argument) does:
arrays keep element order, objects keep the given field order, and non-finite
numbers are silently serialized as `null` (ECMAScript behavior). -/
def emit : Json → List Char
  | .null => "null".data
  | .bool true => "true".data
  | .bool false => "false".data
  | .num (.finite r) => r.data
  | .num (.nonFinite _) => "null".data
  | .str s => quoteStr s
  | .arr xs => '[' :: emitElems xs ++ [']']
  | .obj kvs => '\x7b' :: emitFields kvs ++ ['\x7d']

/-- Emit array elements separated by commas. -/
def emitElems : List Json → List Char
  | [] => []
  | x :: xs => emit x ++ emitElemsTail xs

/-- Emit the remaining array elements, each preceded by a comma. -/
def emitElemsTail : List Json → List Char
  | [] => []
  | x :: xs => ',' :: (emit x ++ emitElemsTail xs)

/-- Emit object fields as `"key":value`, separated by commas. -/
def emitFields : List (String × Json) → List Char
  | [] => []
  | (k, v) :: kvs => quoteStr k ++ ':' :: emit v ++ emitFieldsTail kvs

/-- Emit the remaining object fields, each preceded by a comma. -/
def emitFieldsTail : List (String × Json) → List Char
  | [] => []
  | (k, v) :: kvs => ',' :: (quoteStr k ++ ':' :: emit v ++ emitFieldsTail kvs)
end

/-- Model of JavaScript `JSON.stringify(value)` on the modelled value trees. -/
def jsonStringify (j : Json) : String := String.mk (emit j)

/-- UTF-16 code units of a character sequence, as JavaScript strings store
them: a basic-plane scalar is one unit, a supplementary-plane scalar a
surrogate pair. -/
def utf16Units : List Char → List Nat
  | [] => []
  | c :: cs =>
    (if c.toNat < 65536 then [c.toNat]
     else [55296 + (c.toNat - 65536) / 1024, 56320 + (c.toNat - 65536) % 1024]) ++ utf16Units cs

/-- Weak lexicographic comparison of code-unit sequences: the order induced by
the default comparator of `Array.prototype.sort()`, which compares strings by
UTF-16 code units. -/
def unitsLe : List Nat → List Nat → Bool
  | [], _ => true
  | _ :: _, [] => false
  | a :: as, b :: bs => if a < b then true else if b < a then false else unitsLe as bs

/-- Strict version of `unitsLe`. -/
def unitsLt : List Nat → List Nat → Bool
  | [], [] => false
  | [], _ :: _ => true
  | _ :: _, [] => false
  | a :: as, b :: bs => if a < b then true else if b < a then false else unitsLt as bs

/-- Key comparison used by `Object.keys(obj).sort()`: the default comparator
sorts by UTF-16 code units, so keys are compared through `utf16Units`. -/
def keyLe (p q : String × Json) : Prop :=
  unitsLe (utf16Units p.1.data) (utf16Units q.1.data) = true

instance : DecidableRel keyLe := fun p q =>
  inferInstanceAs (Decidable (unitsLe (utf16Units p.1.data) (utf16Units q.1.data) = true))

instance : IsTotal (String × Json) keyLe :=
  ⟨fun a b => by
    unfold keyLe
    generalize utf16Units a.1.data = as
    generalize utf16Units b.1.data = bs
    induction as generalizing bs with
    | nil => exact Or.inl rfl
    | cons x xs ih =>
      cases bs with
      | nil => exact Or.inr rfl
      | cons y ys =>
        rcases Nat.lt_trichotomy x y with h | h | h
        · exact Or.inl (by simp [unitsLe, h])
        · subst h
          rcases ih ys with h₂ | h₂
          · exact Or.inl (by simp [unitsLe, h₂])
          · exact Or.inr (by simp [unitsLe, h₂])
        · exact Or.inr (by simp [unitsLe, h])⟩

instance : IsTrans (String × Json) keyLe :=
  ⟨fun a b c hab hbc => by
    have aux : ∀ as bs cs : List Nat, unitsLe as bs = true → unitsLe bs cs = true →
        unitsLe as cs = true := by
      intro as
      induction as with
      | nil => intro bs cs h₁ h₂; rfl
      | cons x xs ih =>
        intro bs cs h₁ h₂
        cases bs with
        | nil => exact absurd h₁ (by simp [unitsLe])
        | cons y ys =>
          cases cs with
          | nil => exact absurd h₂ (by simp [unitsLe])
          | cons z zs =>
            rcases Nat.lt_trichotomy x y with hxy | hxy | hxy
            · rcases Nat.lt_trichotomy y z with hyz | hyz | hyz
              · simp [unitsLe, Nat.lt_trans hxy hyz]
              · subst hyz
                simp [unitsLe, hxy]
              · exfalso
                simp only [unitsLe] at h₂
                rw [if_neg (by omega), if_pos hyz] at h₂
                exact Bool.noConfusion h₂
            · subst hxy
              simp only [unitsLe] at h₁
              rw [if_neg (by omega), if_neg (by omega)] at h₁
              rcases Nat.lt_trichotomy x z with hxz | hxz | hxz
              · simp [unitsLe, hxz]
              · subst hxz
                simp only [unitsLe] at h₂ ⊢
                rw [if_neg (by omega), if_neg (by omega)] at h₂
                rw [if_neg (by omega), if_neg (by omega)]
                exact ih ys zs h₁ h₂
              · exfalso
                simp only [unitsLe] at h₂
                rw [if_neg (by omega), if_pos hxz] at h₂
                exact Bool.noConfusion h₂
            · exfalso
              simp only [unitsLe] at h₁
              rw [if_neg (by omega), if_pos hxy] at h₁
              exact Bool.noConfusion h₁
    exact aux _ _ _ hab hbc⟩

/-- Strict version of `keyLe`, used to state that sorted duplicate-free field
lists are unique. -/
def keyLt (p q : String × Json) : Prop :=
  unitsLt (utf16Units p.1.data) (utf16Units q.1.data) = true

instance : IsAntisymm (String × Json) keyLt :=
  ⟨fun a b h₁ h₂ => by
    exfalso
    have aux : ∀ as bs : List Nat, unitsLt as bs = true → unitsLt bs as = true → False := by
      intro as
      induction as with
      | nil =>
        intro bs hab hba
        cases bs with
        | nil => exact Bool.noConfusion hab
        | cons y ys => exact Bool.noConfusion hba
      | cons x xs ih =>
        intro bs hab hba
        cases bs with
        | nil => exact Bool.noConfusion hab
        | cons y ys =>
          simp only [unitsLt] at hab hba
          rcases Nat.lt_trichotomy x y with h | h | h
          · rw [if_neg (by omega), if_pos h] at hba
            exact Bool.noConfusion hba
          · subst h
            rw [if_neg (by omega), if_neg (by omega)] at hab
            rw [if_neg (by omega), if_neg (by omega)] at hba
            exact ih ys hab hba
          · rw [if_neg (by omega), if_pos h] at hab
            exact Bool.noConfusion hab
    exact aux _ _ h₁ h₂⟩

/-- Numeric value of a digit string (used to order array-index keys). -/
def digitsVal (ds : List Char) : Nat :=
  ds.foldl (fun a c => a * 10 + (c.toNat - 48)) 0

/-- Whether a property key is an ECMAScript array index: the canonical decimal
string (no leading zero except `"0"` itself) of an integer below 2^32 − 1.
Such keys are enumerated before all other own properties of a plain object,
in ascending numeric order, regardless of creation order. -/
def isArrayIndex (k : String) : Bool :=
  match k.data with
  | [] => false
  | ['0'] => true
  | '0' :: _ :: _ => false
  | ds => ds.all (fun c => c.isDigit) && digitsVal ds < 4294967295

/-- Comparison of two fields by the numeric value of their (array-index)
keys. -/
def idxLe (p q : String × Json) : Prop := digitsVal p.1.data ≤ digitsVal q.1.data

instance : DecidableRel idxLe := fun p q =>
  inferInstanceAs (Decidable (digitsVal p.1.data ≤ digitsVal q.1.data))

instance : IsTotal (String × Json) idxLe := ⟨fun a b => Nat.le_total _ _⟩

instance : IsTrans (String × Json) idxLe := ⟨fun _ _ _ h₁ h₂ => Nat.le_trans h₁ h₂⟩

/-- Strict version of `idxLe`. -/
def idxLt (p q : String × Json) : Prop := digitsVal p.1.data < digitsVal q.1.data

instance : IsAntisymm (String × Json) idxLt :=
  ⟨fun _ _ h₁ h₂ => absurd h₂ (Nat.lt_asymm h₁)⟩

/-- Own-property enumeration order of a plain object whose properties are
created in the given list order (ECMAScript `OrdinaryOwnPropertyKeys`):
array-index keys first, in ascending numeric order, then the remaining keys
in creation order. `JSON.stringify` visits properties in this order, so an
object rebuilt from sorted keys is NOT emitted in plain sorted order when it
has integer-like keys. -/
def reorderFields (kvs : List (String × Json)) : List (String × Json) :=
  List.insertionSort idxLe (kvs.filter (fun p => isArrayIndex p.1))
    ++ kvs.filter (fun p => !isArrayIndex p.1)

/-- Field list of an object node (empty for every other node). -/
def objFields : Json → List (String × Json)
  | .obj kvs => kvs
  | _ => []


mutual
/-- Model of `sortRecursively` (src/lib/crypto/stableHash.ts): scalars are
returned unchanged, arrays are mapped elementwise, and objects are rebuilt by
reinserting the sorted keys into a fresh object. The source sorts
`Object.keys` with the default comparator and then recurses into each value;
here the fields are recursed into (`sortVals`) and then sorted by key, which
builds the same key sequence. The rebuilt object's fields are then listed in
its enumeration order (`reorderFields`), because that — not the reinsertion
order — is what `JSON.stringify` follows: array-index keys move to the front
in ascending numeric order. -/
def sortRecursively : Json → Json
  | .null => .null
  | .bool b => .bool b
  | .num n => .num n
  | .str s => .str s
  | .arr xs => .arr (sortElems xs)
  | .obj kvs => .obj (reorderFields (List.insertionSort keyLe (sortVals kvs)))

/-- Recursively canonicalize every element of an array, preserving order. -/
def sortElems : List Json → List Json
  | [] => []
  | x :: xs => sortRecursively x :: sortElems xs

/-- Recursively canonicalize every value of an object field list. -/
def sortVals : List (String × Json) → List (String × Json)
  | [] => []
  | (k, v) :: kvs => (k, sortRecursively v) :: sortVals kvs
end

/-- Model of `stableStringify(value)` (src/lib/crypto/stableHash.ts):
`JSON.stringify(sortRecursively(value))`. -/
def stableStringify (j : Json) : String := jsonStringify (sortRecursively j)

/-- Characters allowed in the canonical rendering of a finite double: digits,
sign, decimal point, exponent marker. -/
def numChar (c : Char) : Bool :=
  c.isDigit || c == '-' || c == '+' || c == '.' || c == 'e' || c == 'E'

/-- Well-formed finite-number rendering: nonempty and made of number
characters only. Every canonical ECMAScript rendering of a finite double
satisfies this. -/
def numOk (r : String) : Bool :=
  !r.data.isEmpty && r.data.all numChar

/-- Characters that may legally follow a complete serialized value inside a
larger `JSON.stringify` output: end of input, a comma, or a closing bracket
or closing brace. Used to state that serialization is prefix-unambiguous. -/
def tailOk : List Char → Bool
  | [] => true
  | c :: _ => c == ',' || c == ']' || c == '\x7d'

/-- Syntactic class of the first character of a serialized value. -/
def headKind (c : Char) : Nat :=
  if c = 'n' then 0
  else if c = 't' then 1
  else if c = 'f' then 1
  else if c = '"' then 2
  else if c = '[' then 3
  else if c = '\x7b' then 4
  else if numChar c then 5
  else 6

/-- Class of a value's constructor, aligned with `headKind` of its first
serialized character (for JSON-representable values). -/
def ctorKind : Json → Nat
  | .null => 0
  | .bool _ => 1
  | .str _ => 2
  | .arr _ => 3
  | .obj _ => 4
  | .num _ => 5

/-- Relation between an escaped character and the letter of its two-character
escape sequence in `quoteChar`. -/
def escPair (c x : Char) : Prop :=
  (c = '"' ∧ x = '"') ∨ (c = '\\' ∧ x = '\\') ∨ (c = '\x08' ∧ x = 'b')
    ∨ (c = '\t' ∧ x = 't') ∨ (c = '\n' ∧ x = 'n') ∨ (c = '\x0c' ∧ x = 'f')
    ∨ (c = '\r' ∧ x = 'r')

mutual
/-- Check that a value tree is JSON-representable with well-formed finite
number renderings: exactly the trees that can come back out of a `jsonb`
database column. -/
def jsonbOk : Json → Bool
  | .null => true
  | .bool _ => true
  | .num (.finite r) => numOk r
  | .num (.nonFinite _) => false
  | .str _ => true
  | .arr xs => elemsOk xs
  | .obj kvs => fieldsOk kvs

/-- The `jsonbOk` check on each element of an array. -/
def elemsOk : List Json → Bool
  | [] => true
  | x :: xs => jsonbOk x && elemsOk xs

/-- The `jsonbOk` check on each value of an object field list. -/
def fieldsOk : List (String × Json) → Bool
  | [] => true
  | (_, v) :: kvs => jsonbOk v && fieldsOk kvs
end

/-- Check that a list of object keys has no duplicates (JavaScript object
keys are necessarily distinct). -/
def dupFree : List String → Bool
  | [] => true
  | k :: ks => !ks.contains k && dupFree ks

mutual
/-- Check that every object anywhere in a value tree has duplicate-free keys,
as is automatic for trees built from JavaScript objects. -/
def keysOk : Json → Bool
  | .null => true
  | .bool _ => true
  | .num _ => true
  | .str _ => true
  | .arr xs => elemsKeysOk xs
  | .obj kvs => dupFree (kvs.map Prod.fst) && fieldsKeysOk kvs

/-- The `keysOk` check on each element of an array. -/
def elemsKeysOk : List Json → Bool
  | [] => true
  | x :: xs => keysOk x && elemsKeysOk xs

/-- The `keysOk` check on each value of an object field list. -/
def fieldsKeysOk : List (String × Json) → Bool
  | [] => true
  | (_, v) :: kvs => keysOk v && fieldsKeysOk kvs
end

mutual
/-- Two value trees represent the same logical data and differ only in the
insertion order of object keys: scalars are equal, arrays are equivalent
elementwise in order, and the fields of one object are a permutation of a
field list that matches the other object key-for-key with equivalent values. -/
inductive PermEquiv : Json → Json → Prop where
  | null : PermEquiv .null .null
  | bool (b : Bool) : PermEquiv (.bool b) (.bool b)
  | num (n : JsNum) : PermEquiv (.num n) (.num n)
  | str (s : String) : PermEquiv (.str s) (.str s)
  | arr {xs ys : List Json} : PermEquivElems xs ys → PermEquiv (.arr xs) (.arr ys)
  | obj {kvs mid kvs₂ : List (String × Json)} :
      PermEquivFields kvs mid → mid.Perm kvs₂ → PermEquiv (.obj kvs) (.obj kvs₂)

/-- Elementwise `PermEquiv` on array element lists. -/
inductive PermEquivElems : List Json → List Json → Prop where
  | nil : PermEquivElems [] []
  | cons {x y : Json} {xs ys : List Json} :
      PermEquiv x y → PermEquivElems xs ys → PermEquivElems (x :: xs) (y :: ys)

/-- Pointwise key-preserving `PermEquiv` on object field lists. -/
inductive PermEquivFields : List (String × Json) → List (String × Json) → Prop where
  | nil : PermEquivFields [] []
  | cons (k : String) {v w : Json} {ps qs : List (String × Json)} :
      PermEquiv v w → PermEquivFields ps qs → PermEquivFields ((k, v) :: ps) ((k, w) :: qs)
end

/-- Row of the `ledger_transactions` table, as selected by the verify hook
(`tx_id,payload_hash,prev_hash,created_at,prediction_id,note_id,appointment_id,patient_id`).
Timestamps are carried as the strings the backend returns; `created_at` is set
by the database `now()` default at insert. -/
structure Tx where
  tx_id : String
  payload_hash : String
  prev_hash : Option String
  created_at : String
  prediction_id : Option String
  note_id : Option String
  appointment_id : Option String
  patient_id : String

/-- Row of the `predictions` table, as selected by the verify hook
(`created_at,risk_percentage,risk_category,health_score,input`). `input` is a
`jsonb` column, hence an arbitrary JSON tree. -/
structure Pred where
  created_at : String
  risk_percentage : JsNum
  risk_category : String
  health_score : JsNum
  input : Json

/-- Row of the `appointment_notes` table, as selected by the verify hook
(`id,appointment_id,doctor_id,patient_id,diagnosis,recommendations,finalized_at`).
`diagnosis`, `recommendations` and `finalized_at` are nullable columns. -/
structure Note where
  id : String
  appointment_id : String
  doctor_id : String
  patient_id : String
  diagnosis : Option String
  recommendations : Option String
  finalized_at : Option String

/-- Reduced-disclosure metadata row returned by the
`get_ledger_tx_meta_for_doctor` RPC. -/
structure TxMeta where
  tx_id : String
  created_at : String
  patient_id : String
  prediction_id : Option String
  note_id : Option String
  appointment_id : Option String

/-- Project a ledger row to the metadata columns the RPC selects. -/
def txMetaOf (t : Tx) : TxMeta :=
  ⟨t.tx_id, t.created_at, t.patient_id, t.prediction_id, t.note_id, t.appointment_id⟩

/-- The `VerifyStatus` union of the verify hook. -/
inductive VerifyStatus where
  | loading
  | valid
  | invalid
  | auth_required
  | no_access
  | consent_required
  | consent_pending
deriving DecidableEq

/-- Client-side application role from the auth provider. -/
inductive AppRole where
  | doctor
  | patient
deriving DecidableEq

/-- Reconstructed prediction snapshot: the object literal built by
`buildPredictionPayload(tx, pred)` in the verify hook, with fields in the
order written there. -/
def predSnapshotJson (txPatientId : String) (p : Pred) : Json :=
  .obj [("input", p.input),
        ("risk", .obj [("risk", .num p.risk_percentage), ("category", .str p.risk_category)]),
        ("score", .num p.health_score),
        ("at", .str p.created_at),
        ("patient_id", .str txPatientId)]

/-- Model of `buildPredictionPayload(tx, pred)` (verify hook):
`JSON.stringify` of the reconstructed prediction snapshot. -/
def buildPredictionPayload (tx : Tx) (p : Pred) : String :=
  jsonStringify (predSnapshotJson tx.patient_id p)

/-- Reconstructed note snapshot: the object literal built by
`buildNotePayload(note, finalizedAtFallback)` in the verify hook. Null
`diagnosis`/`recommendations` become `""` and a null `finalized_at` falls back
to the supplied string, exactly as the `??` operators do in the source. -/
def noteSnapshotJson (n : Note) (finalizedAtFallback : String) : Json :=
  .obj [("appointment_id", .str n.appointment_id),
        ("note_id", .str n.id),
        ("patient_id", .str n.patient_id),
        ("doctor_id", .str n.doctor_id),
        ("diagnosis", .str (n.diagnosis.getD "")),
        ("recommendations", .str (n.recommendations.getD "")),
        ("finalized_at", .str (n.finalized_at.getD finalizedAtFallback))]

/-- Model of `buildNotePayload(note, finalizedAtFallback)` (verify hook). -/
def buildNotePayload (n : Note) (finalizedAtFallback : String) : String :=
  jsonStringify (noteSnapshotJson n finalizedAtFallback)

/-- Row of the `doctor_patient_consents` table (columns used by the core). -/
structure ConsentRow where
  id : String
  doctor_id : String
  patient_id : String
  status : String
  created_at : String

/-- Row of the `notifications` table (columns the consent RPC inserts). -/
structure NotificationRow where
  user_id : String
  type : String
  title : String
  body : String
  href : String

/-- Result of a `.order("created_at", { ascending: false }).limit(1)` query
over the given rows: the first row carrying the maximal `created_at`. -/
def latestBy {α : Type} (created : α → String) : List α → Option α
  | [] => none
  | r :: rs =>
    match latestBy created rs with
    | none => some r
    | some u => if created r < created u then some u else some r

/-- Everything the verify hook's `run` can observe from the backend for one
transaction id: the RLS-filtered ledger row, the ledger store contents used by
the doctor metadata RPC, the requester's server-side doctor role, the consent
rows, and the RLS-filtered payload fetches. -/
structure Env where
  store : List Tx
  canReadTx : Tx → Bool
  serverDoctor : Bool
  consents : List ConsentRow
  fetchPred : String → Option Pred
  fetchNote : String → Option Note

/-- Model of `fetchTxWithRls(txId)`: the `ledger_transactions` select filtered
by `tx_id` under row-level security, which hides rows the requester may not
read before the match is attempted. -/
def fetchTxWithRls (env : Env) (txId : String) : Option Tx :=
  env.store.find? (fun t => t.tx_id == txId && env.canReadTx t)

/-- Model of `fetchTxMetaForDoctor(txId)`: the `get_ledger_tx_meta_for_doctor`
RPC is `SECURITY DEFINER` (bypasses RLS) but returns a row only when the
caller holds the server-side `doctor` role. -/
def fetchTxMetaForDoctor (env : Env) (txId : String) : Option TxMeta :=
  if env.serverDoctor then
    (env.store.find? (fun t => t.tx_id == txId)).map txMetaOf
  else none

/-- Model of `fetchConsentStatus`: latest consent row for the
(patient, doctor) pair, any status, newest `created_at` first. -/
def fetchConsentStatus (rows : List ConsentRow) (patientId doctorId : String) : Option String :=
  (latestBy ConsentRow.created_at
    (rows.filter (fun r => r.patient_id == patientId && r.doctor_id == doctorId))).map
    ConsentRow.status

/-- Observable outcome of one settled execution of the verify hook's `run`:
the terminal status plus the row state it exposes (`tx`, `pred`, `note`,
`meta`). Display-only side state (`patientLabel`) and the transient `loading`
phase are not modelled. -/
structure RunOutcome where
  status : VerifyStatus
  tx : Option Tx
  pred : Option Pred
  note : Option Note
  meta : Option TxMeta

/-- Outcome that exposes nothing: only a status. -/
def bareOutcome (s : VerifyStatus) : RunOutcome := ⟨s, none, none, none, none⟩

/-- Model of `useVerifyRecord`'s `run` callback after auth has loaded, as a
function of the requester (`sessionUserId`, client `role`) and the backend
view `env`. Follows the source control flow: no session → `auth_required`;
ledger row not visible → doctor metadata/consent path or `no_access`; row
visible → fetch the referenced payload, recompute the hash with `h`, compare
with the stored `payload_hash`. -/
def run (h : String → String) (env : Env) (txId : String)
    (sessionUserId : Option String) (role : Option AppRole) : RunOutcome :=
  match sessionUserId with
  | none => bareOutcome .auth_required
  | some uid =>
    match fetchTxWithRls env txId with
    | none =>
      if role = some .doctor then
        match fetchTxMetaForDoctor env txId with
        | none => bareOutcome .no_access
        | some m =>
          let consent := fetchConsentStatus env.consents m.patient_id uid
          { bareOutcome (if consent = some "pending" then .consent_pending else .consent_required)
            with meta := some m }
      else bareOutcome .no_access
    | some txRow =>
      match txRow.prediction_id with
      | some pid =>
        match env.fetchPred pid with
        | none => { bareOutcome .no_access with tx := some txRow }
        | some p =>
          { status := if h (buildPredictionPayload txRow p) = txRow.payload_hash
                      then .valid else .invalid
            tx := some txRow, pred := some p, note := none, meta := none }
      | none =>
        match txRow.note_id with
        | some nid =>
          match env.fetchNote nid with
          | none => { bareOutcome .no_access with tx := some txRow }
          | some nrow =>
            { status := if h (buildNotePayload nrow txRow.created_at) = txRow.payload_hash
                        then .valid else .invalid
              tx := some txRow, pred := none, note := some nrow, meta := none }
        | none => { bareOutcome .invalid with tx := some txRow }

/-- Write-time prediction payload: the object literal serialized inline in
`savePrediction` — `{ input, risk: riskInfo, score, at: new Date().toISOString(),
patient_id: user.id }` with `riskInfo = { risk, category }` from `scoreToRisk`.
`clientNowIso` is the client clock's `new Date().toISOString()` string. -/
def savePredictionPayloadJson (input : Json) (risk : JsNum) (category : String)
    (score : JsNum) (clientNowIso : String) (userId : String) : Json :=
  .obj [("input", input),
        ("risk", .obj [("risk", .num risk), ("category", .str category)]),
        ("score", .num score),
        ("at", .str clientNowIso),
        ("patient_id", .str userId)]

/-- Model of the `lastTx` lookup both write paths perform: the newest
`ledger_transactions` row for the given patient. -/
def latestTxForPatient (store : List Tx) (patientId : String) : Option Tx :=
  latestBy Tx.created_at (store.filter (fun t => t.patient_id == patientId))

/-- Rows produced by one `savePrediction` call: the grown ledger store, the
inserted `predictions` row as later queries return it, and the ledger row. -/
structure SavePredictionResult where
  store : List Tx
  predRow : Pred
  txRow : Tx

/-- Model of the ledger-relevant steps of `savePrediction`
(PatientPrediction page): insert the prediction row (its `created_at` is set
by the database `now()` default, modelled by `dbNow`), hash the write-time
payload built with the client clock `clientNowIso`, look up the previous hash
for the patient, and append the ledger row. The stored `input` tree is modelled
as returned unchanged by later reads. -/
def savePrediction (h : String → String) (store : List Tx) (userId : String)
    (input : Json) (risk : JsNum) (category : String) (score : JsNum)
    (clientNowIso : String) (dbNow : String) (predId : String) (newTxId : String) :
    SavePredictionResult :=
  let payload := jsonStringify (savePredictionPayloadJson input risk category score clientNowIso userId)
  let payloadHash := h payload
  let predRow : Pred := ⟨dbNow, risk, category, score, input⟩
  let prevHash := (latestTxForPatient store userId).map Tx.payload_hash
  let txRow : Tx :=
    ⟨newTxId, payloadHash, prevHash, dbNow, some predId, none, none, userId⟩
  ⟨store ++ [txRow], predRow, txRow⟩

/-- Model of `parsed.diagnosis?.trim() || null` applied before the note
upsert: an absent or whitespace-only value is stored as SQL null. -/
def trimOrNull (s : Option String) : Option String :=
  match s with
  | none => none
  | some v => if v.trim = "" then none else some v.trim

/-- Rows produced by one finalizing `saveDraft` call. -/
structure SaveDraftResult where
  store : List Tx
  noteRow : Note
  txRow : Tx

/-- Write-time note payload: the object literal serialized inline in
`saveDraft` after the upsert, built from the stored row with the same field
order and `?? ""` / `?? nowIso` defaults as the source. -/
def saveDraftPayloadJson (n : Note) (nowIso : String) : Json :=
  .obj [("appointment_id", .str n.appointment_id),
        ("note_id", .str n.id),
        ("patient_id", .str n.patient_id),
        ("doctor_id", .str n.doctor_id),
        ("diagnosis", .str (n.diagnosis.getD "")),
        ("recommendations", .str (n.recommendations.getD "")),
        ("finalized_at", .str (n.finalized_at.getD nowIso))]

/-- Model of the ledger-relevant steps of `saveDraft(finalize = true)`
(DoctorTelemedicine page): upsert the note row with `finalized_at = nowIso`,
hash the write-time payload, look up the previous hash for the patient, and
append the ledger row (`note_id` set, `prediction_id` null). -/
def saveDraftFinalize (h : String → String) (store : List Tx)
    (doctorId patientId apptId noteId : String)
    (diagnosis recommendations : Option String)
    (nowIso : String) (dbNow : String) (newTxId : String) : SaveDraftResult :=
  let noteRow : Note :=
    ⟨noteId, apptId, doctorId, patientId,
     trimOrNull diagnosis, trimOrNull recommendations, some nowIso⟩
  let payload := jsonStringify (saveDraftPayloadJson noteRow nowIso)
  let payloadHash := h payload
  let prevHash := (latestTxForPatient store patientId).map Tx.payload_hash
  let txRow : Tx :=
    ⟨newTxId, payloadHash, prevHash, dbNow, none, some noteId, some apptId, patientId⟩
  ⟨store ++ [txRow], noteRow, txRow⟩

/-- The `num_nonnulls(prediction_id, note_id)` expression of the
`ledger_transactions_exactly_one_payload` check constraint. -/
def numNonnulls (a b : Option String) : Nat :=
  (if a.isSome then 1 else 0) + (if b.isSome then 1 else 0)

/-- Model of inserting one row into `ledger_transactions`: the insert commits
only when the `tx_id` unique constraint and the exactly-one-payload check
constraint hold; otherwise the statement fails and nothing is persisted. -/
def insertLedgerTx (store : List Tx) (t : Tx) : Option (List Tx) :=
  if store.all (fun u => u.tx_id != t.tx_id)
      && numNonnulls t.prediction_id t.note_id == 1 then
    some (store ++ [t])
  else none

/-- Consent-side database state touched by the consent RPC. -/
structure ConsentDb where
  consents : List ConsentRow
  notifications : List NotificationRow

/-- Rows matched by the RPC's reuse query: same doctor and patient with
status `pending` or `granted`. -/
def consentMatch (doctorId patientId : String) (r : ConsentRow) : Bool :=
  r.doctor_id == doctorId && r.patient_id == patientId
    && (r.status == "pending" || r.status == "granted")

/-- Model of the `request_patient_consent(_patient_id)` RPC (migration
20260122061706). `uid` is `auth.uid()`, `serverDoctor` is
`has_role(uid, 'doctor')`, and `newId`/`now` stand for the generated id and
`now()` default of a fresh insert. Returns the updated database and the
consent id, or the raised error message. -/
def requestPatientConsent (db : ConsentDb) (uid : Option String) (serverDoctor : Bool)
    (patientId : String) (newId : String) (now : String) :
    Except String (ConsentDb × String) :=
  match uid with
  | none => .error "Not authenticated"
  | some doctorId =>
    if !serverDoctor then .error "Only doctors can request consent"
    else
      match latestBy ConsentRow.created_at
          (db.consents.filter (consentMatch doctorId patientId)) with
      | some existing => .ok (db, existing.id)
      | none =>
        let row : ConsentRow := ⟨newId, doctorId, patientId, "pending", now⟩
        let notif : NotificationRow :=
          ⟨patientId, "consent", "Doctor requested access",
           "A doctor requested your consent to view a verified report. You can approve or revoke access in Access Control.",
           "/patient/consents"⟩
        .ok (⟨db.consents ++ [row], db.notifications ++ [notif]⟩, newId)

theorem latestBy_eq_none {α : Type} (f : α → String) (l : List α) :
    latestBy f l = none ↔ l = [] := by
  constructor
  · intro hl
    cases l with
    | nil => rfl
    | cons r rs =>
      exfalso
      simp only [latestBy] at hl
      rcases hrec : latestBy f rs with _ | u
      · rw [hrec] at hl; exact Option.noConfusion hl
      · rw [hrec] at hl
        by_cases hc : f r < f u
        · simp [hc] at hl
        · simp [hc] at hl
  · intro hl; subst hl; rfl

theorem latestBy_mem {α : Type} (f : α → String) (l : List α) (r : α)
    (hl : latestBy f l = some r) : r ∈ l := by
  induction l with
  | nil => exact Option.noConfusion hl
  | cons x xs ih =>
    simp only [latestBy] at hl
    rcases hrec : latestBy f xs with _ | u
    · rw [hrec] at hl
      cases hl
      exact List.mem_cons_self _ _
    · rw [hrec] at hl
      by_cases hc : f x < f u
      · simp only [hc, if_true] at hl
        cases hl
        exact List.mem_cons_of_mem x (ih hrec)
      · simp only [hc, if_false] at hl
        cases hl
        exact List.mem_cons_self _ _

/-- C4 — Chain linkage: each write path populates `prev_hash` from the most
recent prior ledger entry for the patient (null when none exists), and for a
subject whose store holds no prior entries, a first write E1 followed by a
second write E2 gives `E1.prev_hash = null` (genesis) and
`E2.prev_hash = some E1.payload_hash`. -/
theorem chain_linkage
    (h : String → String) (store : List Tx) (p : String)
    (input : Json) (risk : JsNum) (category : String) (score : JsNum)
    (cNow dbNow₁ predId txId₁ : String)
    (doctorId apptId noteId : String) (diagnosis recommendations : Option String)
    (nowIso dbNow₂ txId₂ : String)
    (hfresh : ∀ t ∈ store, t.patient_id ≠ p) :
    (savePrediction h store p input risk category score cNow dbNow₁ predId txId₁).txRow.prev_hash
        = (latestTxForPatient store p).map Tx.payload_hash
    ∧ (saveDraftFinalize h store doctorId p apptId noteId diagnosis recommendations
        nowIso dbNow₂ txId₂).txRow.prev_hash
        = (latestTxForPatient store p).map Tx.payload_hash
    ∧ (savePrediction h store p input risk category score cNow dbNow₁ predId txId₁).txRow.prev_hash
        = none
    ∧ (saveDraftFinalize h
          (savePrediction h store p input risk category score cNow dbNow₁ predId txId₁).store
          doctorId p apptId noteId diagnosis recommendations nowIso dbNow₂ txId₂).txRow.prev_hash
        = some (savePrediction h store p input risk category score cNow dbNow₁ predId txId₁).txRow.payload_hash := by
  have hfilter : store.filter (fun t => t.patient_id == p) = [] := by
    rw [List.filter_eq_nil_iff]
    intro t ht
    simpa using hfresh t ht
  have hlatest : latestTxForPatient store p = none := by
    rw [latestTxForPatient, hfilter]; rfl
  refine ⟨rfl, rfl, ?_, ?_⟩
  · show (latestTxForPatient store p).map Tx.payload_hash = none
    rw [hlatest]; rfl
  · show (latestTxForPatient
        (store ++ [(savePrediction h store p input risk category score cNow dbNow₁ predId txId₁).txRow]) p).map
        Tx.payload_hash = _
    rw [latestTxForPatient, List.filter_append, hfilter]
    have hpat : (savePrediction h store p input risk category score cNow dbNow₁ predId
        txId₁).txRow.patient_id = p := rfl
    simp [List.filter_cons, hpat, latestBy]

/-- Witness for `chain_linkage` at a concrete input: empty prior store. -/
theorem chain_linkage_witness :
    (savePrediction id [] "pat" .null (.finite "24") "Low" (.finite "76")
        "t1" "t2" "pred1" "tx1").txRow.prev_hash = none
    ∧ (saveDraftFinalize id
        (savePrediction id [] "pat" .null (.finite "24") "Low" (.finite "76")
          "t1" "t2" "pred1" "tx1").store
        "doc" "pat" "appt1" "note1" none none "t3" "t4" "tx2").txRow.prev_hash
      = some (savePrediction id [] "pat" .null (.finite "24") "Low" (.finite "76")
          "t1" "t2" "pred1" "tx1").txRow.payload_hash := by
  have hmain := chain_linkage id [] "pat" .null (.finite "24") "Low" (.finite "76")
    "t1" "t2" "pred1" "tx1" "doc" "appt1" "note1" none none "t3" "t4" "tx2"
    (by intro t ht; cases ht)
  exact ⟨hmain.2.2.1, hmain.2.2.2⟩

/-- C5 — Exactly-one-payload invariant: an insert into `ledger_transactions`
with zero or two non-null payload references fails with nothing persisted,
a successful insert implies exactly one reference is non-null, and an insert
with exactly one reference and a fresh `tx_id` succeeds. -/
theorem exactly_one_payload
    (store : List Tx) (t : Tx) :
    ((t.prediction_id = none ∧ t.note_id = none) ∨
      (t.prediction_id.isSome ∧ t.note_id.isSome) →
      insertLedgerTx store t = none)
    ∧ (∀ s₂, insertLedgerTx store t = some s₂ →
        numNonnulls t.prediction_id t.note_id = 1 ∧ s₂ = store ++ [t])
    ∧ ((store.all fun u => u.tx_id != t.tx_id) = true →
        numNonnulls t.prediction_id t.note_id = 1 →
        insertLedgerTx store t = some (store ++ [t])) := by
  refine ⟨?_, ?_, ?_⟩
  · rintro (⟨hp, hn⟩ | ⟨hp, hn⟩) <;>
      simp [insertLedgerTx, numNonnulls, hp, hn]
  · intro s₂ hins
    rw [insertLedgerTx] at hins
    by_cases hcond : (store.all fun u => u.tx_id != t.tx_id)
        && numNonnulls t.prediction_id t.note_id == 1
    · rw [if_pos hcond] at hins
      cases hins
      have := (Bool.and_eq_true _ _).mp hcond
      exact ⟨by simpa using this.2, rfl⟩
    · rw [if_neg hcond] at hins
      exact Option.noConfusion hins
  · intro hfresh hone
    rw [insertLedgerTx, if_pos]
    rw [hfresh, hone]
    rfl

/-- Witness for `exactly_one_payload`: a zero-reference row is rejected and
an exactly-one-reference row is stored. -/
theorem exactly_one_payload_witness :
    insertLedgerTx [] ⟨"tx1", "h1", none, "t1", none, none, none, "pat"⟩ = none
    ∧ insertLedgerTx [] ⟨"tx2", "h2", none, "t2", some "pred1", none, none, "pat"⟩
      = some [⟨"tx2", "h2", none, "t2", some "pred1", none, none, "pat"⟩] :=
  ⟨(exactly_one_payload [] _).1 (Or.inl ⟨rfl, rfl⟩),
   (exactly_one_payload [] _).2.2 rfl rfl⟩

/-- C8 — Non-finite numbers are not rejected by the canonical serializer:
`stableStringify` silently serializes `NaN`, `Infinity` and `-Infinity` as the
JSON `null` token (the `JSON.stringify` coercion), instead of failing fast as
specified. -/
theorem stableStringify_coerces_nonfinite :
    stableStringify (Json.num (JsNum.nonFinite .nan)) = "null"
    ∧ stableStringify (Json.num (JsNum.nonFinite .posInf)) = "null"
    ∧ stableStringify (Json.num (JsNum.nonFinite .negInf)) = "null"
    ∧ stableStringify (Json.arr [Json.num (JsNum.nonFinite .nan)]) = "[null]"
    ∧ stableStringify (Json.num (JsNum.nonFinite .nan)) = stableStringify Json.null :=
  ⟨rfl, rfl, rfl, rfl, rfl⟩

/-- C6 — Authorization collapse: for an authenticated requester with no
escalation path (client role not doctor, or server-side doctor role absent),
verifying an existing-but-unreadable transaction id and verifying a
nonexistent transaction id are observably indistinguishable: both runs return
the bare `no_access` outcome, with no entry, payload, or metadata exposed. -/
theorem authorization_collapse
    (h : String → String) (env₁ env₂ : Env) (txId : String) (uid : String)
    (role : Option AppRole)
    (hesc : role = some AppRole.doctor → env₁.serverDoctor = false ∧ env₂.serverDoctor = false)
    (hexists : ∃ t, t ∈ env₁.store ∧ t.tx_id = txId)
    (hdenied : ∀ t, t ∈ env₁.store → t.tx_id = txId → env₁.canReadTx t = false)
    (hmissing : ∀ t, t ∈ env₂.store → t.tx_id ≠ txId) :
    run h env₁ txId (some uid) role = run h env₂ txId (some uid) role
    ∧ run h env₁ txId (some uid) role = bareOutcome .no_access := by
  have hfetch₁ : fetchTxWithRls env₁ txId = none := by
    rw [fetchTxWithRls, List.find?_eq_none]
    intro t ht
    by_cases htx : t.tx_id = txId
    · simp [htx, hdenied t ht htx]
    · simp [htx]
  have hfetch₂ : fetchTxWithRls env₂ txId = none := by
    rw [fetchTxWithRls, List.find?_eq_none]
    intro t ht
    simp [hmissing t ht]
  have hout : ∀ env : Env, fetchTxWithRls env txId = none →
      (role = some AppRole.doctor → env.serverDoctor = false) →
      run h env txId (some uid) role = bareOutcome .no_access := by
    intro env hfetch hdoc
    by_cases hrole : role = some AppRole.doctor
    · have hmeta : fetchTxMetaForDoctor env txId = none := by
        rw [fetchTxMetaForDoctor, hdoc hrole]
        simp
      simp only [run, hfetch, if_pos hrole, hmeta]
    · simp only [run, hfetch, if_neg hrole]
  have h₁ := hout env₁ hfetch₁ (fun hr => (hesc hr).1)
  have h₂ := hout env₂ hfetch₂ (fun hr => (hesc hr).2)
  exact ⟨h₁.trans h₂.symm, h₁⟩

/-- Witness for `authorization_collapse`: a patient-role requester, an
existing entry hidden by row-level security in one backend view, no entry at
all in the other. -/
theorem authorization_collapse_witness :
    run id
        ⟨[⟨"tx1", "h1", none, "t1", some "pred1", none, none, "pat"⟩],
         fun _ => false, true, [], fun _ => none, fun _ => none⟩
        "tx1" (some "alice") (some .patient)
      = run id ⟨[], fun _ => true, true, [], fun _ => none, fun _ => none⟩
        "tx1" (some "alice") (some .patient)
    ∧ run id
        ⟨[⟨"tx1", "h1", none, "t1", some "pred1", none, none, "pat"⟩],
         fun _ => false, true, [], fun _ => none, fun _ => none⟩
        "tx1" (some "alice") (some .patient)
      = bareOutcome .no_access :=
  authorization_collapse id
    ⟨[⟨"tx1", "h1", none, "t1", some "pred1", none, none, "pat"⟩],
     fun _ => false, true, [], fun _ => none, fun _ => none⟩
    ⟨[], fun _ => true, true, [], fun _ => none, fun _ => none⟩
    "tx1" "alice" (some .patient)
    (fun hr => absurd hr (by decide))
    ⟨⟨"tx1", "h1", none, "t1", some "pred1", none, none, "pat"⟩,
      List.mem_cons_self _ _, rfl⟩
    (fun t ht _ => rfl)
    (fun t ht => by cases ht)

/-- C7 — Missing owning payload collapses to `no_access`: when the ledger row
is readable but the referenced prediction row (or, for a note entry, the
referenced note row) cannot be fetched, the verifier terminates in
`no_access`, exposing no payload. -/
theorem missing_payload_no_access
    (h : String → String) (env : Env) (txId : String) (uid : String)
    (role : Option AppRole) (tx : Tx)
    (hfetch : fetchTxWithRls env txId = some tx)
    (hmiss : (∃ pid, tx.prediction_id = some pid ∧ env.fetchPred pid = none) ∨
      (tx.prediction_id = none ∧ ∃ nid, tx.note_id = some nid ∧ env.fetchNote nid = none)) :
    (run h env txId (some uid) role).status = .no_access
    ∧ (run h env txId (some uid) role).pred = none
    ∧ (run h env txId (some uid) role).note = none := by
  rcases hmiss with ⟨pid, hpid, hpred⟩ | ⟨hpid, nid, hnid, hnote⟩
  · simp only [run, hfetch, hpid, hpred]
    exact ⟨rfl, rfl, rfl⟩
  · simp only [run, hfetch, hpid, hnid, hnote]
    exact ⟨rfl, rfl, rfl⟩

/-- Witness for `missing_payload_no_access`: a readable prediction entry whose
prediction row fetch returns nothing. -/
theorem missing_payload_no_access_witness :
    (run id
        ⟨[⟨"tx1", "h1", none, "t1", some "pred1", none, none, "pat"⟩],
         fun _ => true, false, [], fun _ => none, fun _ => none⟩
        "tx1" (some "pat") (some .patient)).status = .no_access :=
  (missing_payload_no_access id
    ⟨[⟨"tx1", "h1", none, "t1", some "pred1", none, none, "pat"⟩],
     fun _ => true, false, [], fun _ => none, fun _ => none⟩
    "tx1" "pat" (some .patient)
    ⟨"tx1", "h1", none, "t1", some "pred1", none, none, "pat"⟩
    rfl (Or.inl ⟨"pred1", rfl, rfl⟩)).1

/-- C9 — Idempotent consent request: when a pending or granted consent row for
the (doctor, patient) pair already exists, `request_patient_consent` returns
an existing row's id and changes nothing; and calling the RPC twice in a row
leaves the database of the first call untouched, the second call again
returning the id of an existing pending/granted row. -/
theorem consent_request_idempotent
    (db : ConsentDb) (d patientId newId now : String) :
    (∀ r, latestBy ConsentRow.created_at (db.consents.filter (consentMatch d patientId)) = some r →
      requestPatientConsent db (some d) true patientId newId now = .ok (db, r.id))
    ∧ (∀ db₁ id₁ newId₂ now₂,
        requestPatientConsent db (some d) true patientId newId now = .ok (db₁, id₁) →
        ∃ id₂ r, requestPatientConsent db₁ (some d) true patientId newId₂ now₂ = .ok (db₁, id₂)
          ∧ r ∈ db₁.consents ∧ consentMatch d patientId r = true ∧ r.id = id₂) := by
  constructor
  · intro r hr
    rw [requestPatientConsent]
    simp only [Bool.not_true, Bool.false_eq_true, if_false, hr]
  · intro db₁ id₁ newId₂ now₂ hcall
    rw [requestPatientConsent] at hcall
    simp only [Bool.not_true, Bool.false_eq_true, if_false] at hcall
    rcases hlatest : latestBy ConsentRow.created_at
        (db.consents.filter (consentMatch d patientId)) with _ | r
    · rw [hlatest] at hcall
      cases hcall
      have hnil : db.consents.filter (consentMatch d patientId) = [] :=
        (latestBy_eq_none _ _).mp hlatest
      have hrow : consentMatch d patientId ⟨newId, d, patientId, "pending", now⟩ = true := by
        simp [consentMatch]
      refine ⟨newId, ⟨newId, d, patientId, "pending", now⟩, ?_, ?_, hrow, rfl⟩
      · rw [requestPatientConsent]
        simp only [Bool.not_true, Bool.false_eq_true, if_false]
        have hfilter : (db.consents ++ [(⟨newId, d, patientId, "pending", now⟩ : ConsentRow)]).filter
            (consentMatch d patientId) = [⟨newId, d, patientId, "pending", now⟩] := by
          rw [List.filter_append, hnil, List.filter_cons, if_pos hrow]
          rfl
        rw [hfilter]
        rfl
      · exact List.mem_append.mpr (Or.inr (List.mem_cons_self _ _))
    · rw [hlatest] at hcall
      cases hcall
      have hmem : r ∈ db.consents.filter (consentMatch d patientId) :=
        latestBy_mem _ _ _ hlatest
      refine ⟨r.id, r, ?_, ?_, ?_, rfl⟩
      · rw [requestPatientConsent]
        simp only [Bool.not_true, Bool.false_eq_true, if_false, hlatest]
      · exact (List.mem_filter.mp hmem).1
      · exact (List.mem_filter.mp hmem).2

/-- Witness for `consent_request_idempotent`: two consecutive calls starting
from an empty consent database. -/
theorem consent_request_idempotent_witness :
    ∃ id₂ r, requestPatientConsent
        ⟨[⟨"c1", "doc", "pat", "pending", "t1"⟩],
         [⟨"pat", "consent", "Doctor requested access",
           "A doctor requested your consent to view a verified report. You can approve or revoke access in Access Control.",
           "/patient/consents"⟩]⟩
        (some "doc") true "pat" "c2" "t2"
      = .ok (⟨[⟨"c1", "doc", "pat", "pending", "t1"⟩],
          [⟨"pat", "consent", "Doctor requested access",
            "A doctor requested your consent to view a verified report. You can approve or revoke access in Access Control.",
            "/patient/consents"⟩]⟩, id₂)
      ∧ r ∈ [(⟨"c1", "doc", "pat", "pending", "t1"⟩ : ConsentRow)]
      ∧ consentMatch "doc" "pat" r = true ∧ r.id = id₂ :=
  (consent_request_idempotent ⟨[], []⟩ "doc" "pat" "c1" "t1").2
    ⟨[⟨"c1", "doc", "pat", "pending", "t1"⟩],
     [⟨"pat", "consent", "Doctor requested access",
       "A doctor requested your consent to view a verified report. You can approve or revoke access in Access Control.",
       "/patient/consents"⟩]⟩
    "c1" "c2" "t2" rfl

/-- Helper congruence: the verifier status only depends on the note fetch
through the note payload it produces. -/
theorem run_status_note_swap (h : String → String)
    (s : List Tx) (cr : Tx → Bool) (sd : Bool) (co : List ConsentRow)
    (fp : String → Option Pred) (fn₁ fn₂ : String → Option Note)
    (txId : String) (uid : Option String) (role : Option AppRole)
    (hfn : ∀ i fb, Option.map (fun nr => buildNotePayload nr fb) (fn₁ i)
        = Option.map (fun nr => buildNotePayload nr fb) (fn₂ i)) :
    (run h ⟨s, cr, sd, co, fp, fn₁⟩ txId uid role).status
      = (run h ⟨s, cr, sd, co, fp, fn₂⟩ txId uid role).status := by
  cases uid with
  | none => rfl
  | some u =>
    rw [run, run]
    rcases htx : fetchTxWithRls ⟨s, cr, sd, co, fp, fn₁⟩ txId with _ | txRow
    · have htx₂ : fetchTxWithRls ⟨s, cr, sd, co, fp, fn₂⟩ txId = none := htx
      simp only [htx, htx₂]
      have hm : fetchTxMetaForDoctor ⟨s, cr, sd, co, fp, fn₁⟩ txId
          = fetchTxMetaForDoctor ⟨s, cr, sd, co, fp, fn₂⟩ txId := rfl
      rw [hm]
    · have htx₂ : fetchTxWithRls ⟨s, cr, sd, co, fp, fn₂⟩ txId = some txRow := htx
      simp only [htx, htx₂]
      rcases hp : txRow.prediction_id with _ | pid
      · simp only [hp]
        rcases hn : txRow.note_id with _ | nid
        · rfl
        · simp only [hn]
          rcases h₁ : fn₁ nid with _ | n₁
          · rcases h₂ : fn₂ nid with _ | n₂
            · simp only [h₁, h₂]
            · exfalso
              have hmap := hfn nid ""
              rw [h₁, h₂] at hmap
              exact Option.noConfusion hmap
          · rcases h₂ : fn₂ nid with _ | n₂
            · exfalso
              have hmap := hfn nid ""
              rw [h₁, h₂] at hmap
              exact Option.noConfusion hmap
            · have hbp : buildNotePayload n₁ txRow.created_at
                  = buildNotePayload n₂ txRow.created_at := by
                have hmap := hfn nid txRow.created_at
                rw [h₁, h₂] at hmap
                exact Option.some.inj hmap
              simp only [h₁, h₂, hbp]
      · simp only [hp]

/-- C10 — Null and empty-string collapse for anchored notes: a note whose
`diagnosis` (or `recommendations`) is null and the same note with the empty
string produce the identical payload string on the verify path and on the
write path, hence the identical hash, and the verifier status is identical
whichever of the two rows the note fetch returns. -/
theorem note_null_empty_indistinguishable
    (n : Note) (fb : String) :
    buildNotePayload { n with diagnosis := none } fb
      = buildNotePayload { n with diagnosis := some "" } fb
    ∧ buildNotePayload { n with recommendations := none } fb
      = buildNotePayload { n with recommendations := some "" } fb
    ∧ saveDraftPayloadJson { n with diagnosis := none } fb
      = saveDraftPayloadJson { n with diagnosis := some "" } fb
    ∧ saveDraftPayloadJson { n with recommendations := none } fb
      = saveDraftPayloadJson { n with recommendations := some "" } fb
    ∧ (∀ h : String → String,
        h (buildNotePayload { n with diagnosis := none } fb)
          = h (buildNotePayload { n with diagnosis := some "" } fb))
    ∧ (∀ (h : String → String) (env : Env) (txId : String)
        (uid : Option String) (role : Option AppRole) (nid : String),
        (run h { env with fetchNote := fun i =>
            if i == nid then some ({ n with diagnosis := none }) else env.fetchNote i }
          txId uid role).status
        = (run h { env with fetchNote := fun i =>
            if i == nid then some ({ n with diagnosis := some "" }) else env.fetchNote i }
          txId uid role).status) := by
  refine ⟨rfl, rfl, rfl, rfl, fun h => rfl, ?_⟩
  intro h env txId uid role nid
  obtain ⟨es, ec, ed, eco, efp, efn⟩ := env
  refine run_status_note_swap h es ec ed eco efp _ _ txId uid role ?_
  intro i fb₂
  by_cases hi : (i == nid) = true
  · rw [if_pos hi, if_pos hi]
    rfl
  · rw [if_neg hi, if_neg hi]

theorem sortElems_eq_map (xs : List Json) : sortElems xs = xs.map sortRecursively := by
  induction xs with
  | nil => rfl
  | cons x xs ih => rw [sortElems, ih, List.map_cons]

theorem sortVals_eq_map (kvs : List (String × Json)) :
    sortVals kvs = kvs.map (fun p => (p.1, sortRecursively p.2)) := by
  induction kvs with
  | nil => rfl
  | cons p kvs ih =>
    obtain ⟨k, v⟩ := p
    rw [sortVals, ih, List.map_cons]

theorem keys_sortVals (kvs : List (String × Json)) :
    (sortVals kvs).map Prod.fst = kvs.map Prod.fst := by
  rw [sortVals_eq_map, List.map_map]
  rfl

theorem dupFree_iff (l : List String) : dupFree l = true ↔ l.Nodup := by
  induction l with
  | nil => simp [dupFree]
  | cons k ks ih =>
    rw [dupFree, List.nodup_cons, Bool.and_eq_true, Bool.not_eq_true', ← ih]
    constructor
    · rintro ⟨hc, hd⟩
      exact ⟨fun hmem => by simp [List.elem_iff, hmem] at hc, hd⟩
    · rintro ⟨hmem, hd⟩
      refine ⟨?_, hd⟩
      by_cases hc : ks.contains k = true
      · exact absurd (List.elem_iff.mp hc) hmem
      · simpa using hc

theorem char_toNat_inj (c₁ c₂ : Char) (h : c₁.toNat = c₂.toNat) : c₁ = c₂ := by
  rw [← Char.ofNat_toNat c₁, ← Char.ofNat_toNat c₂, h]

theorem char_valid_nat (c : Char) :
    c.toNat < 55296 ∨ (57343 < c.toNat ∧ c.toNat < 1114112) := c.valid

theorem utf16Units_inj : ∀ cs₁ cs₂ : List Char, utf16Units cs₁ = utf16Units cs₂ → cs₁ = cs₂ := by
  intro cs₁
  induction cs₁ with
  | nil =>
    intro cs₂ h
    cases cs₂ with
    | nil => rfl
    | cons c cs =>
      exfalso
      simp only [utf16Units, List.cons_append, List.nil_append] at h
      split_ifs at h <;> exact List.noConfusion h
  | cons c₁ cs₁ ih =>
    intro cs₂ h
    cases cs₂ with
    | nil =>
      exfalso
      simp only [utf16Units, List.cons_append, List.nil_append] at h
      split_ifs at h <;> exact List.noConfusion h
    | cons c₂ cs₂ =>
      simp only [utf16Units, List.cons_append, List.nil_append] at h
      have hv₁ := char_valid_nat c₁
      have hv₂ := char_valid_nat c₂
      split_ifs at h with hA hB hB
      · have h₁ := (List.cons.injEq _ _ _ _).mp h
        rw [char_toNat_inj c₁ c₂ h₁.1, ih cs₂ h₁.2]
      · exfalso
        have h₁ := (List.cons.injEq _ _ _ _).mp h
        have hc := h₁.1
        omega
      · exfalso
        have h₁ := (List.cons.injEq _ _ _ _).mp h
        have hc := h₁.1
        omega
      · have h₁ := (List.cons.injEq _ _ _ _).mp h
        have h₂ := (List.cons.injEq _ _ _ _).mp h₁.2
        have hc : c₁.toNat = c₂.toNat := by
          have hhi := h₁.1
          have hlo := h₂.1
          omega
        rw [char_toNat_inj c₁ c₂ hc, ih cs₂ h₂.2]

theorem unitsLt_of_le_of_ne :
    ∀ as bs : List Nat, unitsLe as bs = true → as ≠ bs → unitsLt as bs = true := by
  intro as
  induction as with
  | nil =>
    intro bs hle hne
    cases bs with
    | nil => exact absurd rfl hne
    | cons y ys => rfl
  | cons x xs ih =>
    intro bs hle hne
    cases bs with
    | nil => exact absurd hle (by simp [unitsLe])
    | cons y ys =>
      simp only [unitsLe] at hle
      simp only [unitsLt]
      rcases Nat.lt_trichotomy x y with h | h | h
      · rw [if_pos h]
      · subst h
        rw [if_neg (by omega), if_neg (by omega)] at hle
        rw [if_neg (by omega), if_neg (by omega)]
        refine ih ys hle ?_
        intro hx
        exact hne (by rw [hx])
      · exfalso
        rw [if_neg (by omega), if_pos h] at hle
        exact Bool.noConfusion hle

theorem sorted_keyLt_of_le (l : List (String × Json)) (hs : List.Sorted keyLe l)
    (hn : (l.map Prod.fst).Nodup) : List.Sorted keyLt l := by
  have hpn : l.Pairwise (fun a b => a.1 ≠ b.1) := List.pairwise_map.mp hn
  exact (hs.and hpn).imp (fun h =>
    unitsLt_of_le_of_ne _ _ h.1
      (fun heq => h.2 (String.ext (utf16Units_inj _ _ heq))))

theorem insertionSort_eq_of_perm (l₁ l₂ : List (String × Json)) (hp : l₁.Perm l₂)
    (hn : (l₁.map Prod.fst).Nodup) :
    List.insertionSort keyLe l₁ = List.insertionSort keyLe l₂ := by
  have hp₁ := List.perm_insertionSort keyLe l₁
  have hp₂ := List.perm_insertionSort keyLe l₂
  have hs₁ := List.sorted_insertionSort keyLe l₁
  have hs₂ := List.sorted_insertionSort keyLe l₂
  have hn₁ : ((List.insertionSort keyLe l₁).map Prod.fst).Nodup :=
    ((hp₁.map Prod.fst).nodup_iff).mpr hn
  have hn₂ : ((List.insertionSort keyLe l₂).map Prod.fst).Nodup :=
    ((hp₂.map Prod.fst).nodup_iff).mpr (((hp.map Prod.fst).nodup_iff).mp hn)
  exact List.eq_of_perm_of_sorted (hp₁.trans (hp.trans hp₂.symm))
    (sorted_keyLt_of_le _ hs₁ hn₁) (sorted_keyLt_of_le _ hs₂ hn₂)

theorem fields_sort_eq (kvs mid : List (String × Json))
    (hf : PermEquivFields kvs mid)
    (hih : ∀ p ∈ kvs, ∀ w, PermEquiv p.2 w → keysOk p.2 = true →
      sortRecursively p.2 = sortRecursively w)
    (hok : fieldsKeysOk kvs = true) :
    sortVals kvs = sortVals mid ∧ kvs.map Prod.fst = mid.map Prod.fst := by
  induction kvs generalizing mid with
  | nil =>
    cases hf
    exact ⟨rfl, rfl⟩
  | cons p kvs ih =>
    obtain ⟨k, v⟩ := p
    cases hf with
    | cons _ hv hrest =>
      rw [fieldsKeysOk, Bool.and_eq_true] at hok
      have hvw := hih (k, v) (List.mem_cons_self _ _) _ hv hok.1
      have hrec := ih _ hrest
        (fun q hq w hw hk => hih q (List.mem_cons_of_mem _ hq) w hw hk) hok.2
      rw [sortVals, sortVals, hvw, hrec.1]
      exact ⟨rfl, by rw [List.map_cons, List.map_cons, hrec.2]⟩

theorem elems_sort_eq (xs ys : List Json)
    (he : PermEquivElems xs ys)
    (hih : ∀ x ∈ xs, ∀ y, PermEquiv x y → keysOk x = true →
      sortRecursively x = sortRecursively y)
    (hok : elemsKeysOk xs = true) : sortElems xs = sortElems ys := by
  induction xs generalizing ys with
  | nil =>
    cases he
    rfl
  | cons x xs ih =>
    cases he with
    | cons hx hrest =>
      rw [elemsKeysOk, Bool.and_eq_true] at hok
      rw [sortElems, sortElems,
        hih x (List.mem_cons_self _ _) _ hx hok.1,
        ih _ hrest (fun q hq w hw hk => hih q (List.mem_cons_of_mem _ hq) w hw hk) hok.2]

theorem sort_eq_of_permEquiv :
    ∀ (n : Nat) (a b : Json), sizeOf a ≤ n → PermEquiv a b → keysOk a = true →
      sortRecursively a = sortRecursively b := by
  intro n
  induction n with
  | zero =>
    intro a b hsz
    exfalso
    cases a <;> simp at hsz
  | succ n ih =>
    intro a b hsz hpe hok
    cases hpe with
    | null => rfl
    | bool b => rfl
    | num m => rfl
    | str s => rfl
    | arr he =>
      rename_i xs ys
      rw [sortRecursively, sortRecursively]
      rw [keysOk] at hok
      have hih : ∀ x ∈ xs, ∀ y, PermEquiv x y → keysOk x = true →
          sortRecursively x = sortRecursively y := by
        intro x hx y hy hk
        have hlt : sizeOf x < sizeOf (Json.arr xs) := by
          have := List.sizeOf_lt_of_mem hx
          simp only [Json.arr.sizeOf_spec]
          omega
        exact ih x y (by omega) hy hk
      rw [elems_sort_eq xs ys he hih hok]
    | obj hf hperm =>
      rename_i kvs mid kvs₂
      rw [sortRecursively, sortRecursively]
      rw [keysOk, Bool.and_eq_true] at hok
      have hih : ∀ p ∈ kvs, ∀ w, PermEquiv p.2 w → keysOk p.2 = true →
          sortRecursively p.2 = sortRecursively w := by
        intro p hp w hw hk
        have hlt : sizeOf p.2 < sizeOf (Json.obj kvs) := by
          have hmem := List.sizeOf_lt_of_mem hp
          obtain ⟨k, v⟩ := p
          simp only [Json.obj.sizeOf_spec, Prod.mk.sizeOf_spec] at *
          omega
        exact ih p.2 w (by omega) hw hk
      obtain ⟨hvals, hkeys⟩ := fields_sort_eq kvs mid hf hih hok.2
      rw [hvals]
      have hnodup : ((sortVals mid).map Prod.fst).Nodup := by
        rw [keys_sortVals, ← hkeys]
        exact (dupFree_iff _).mp hok.1
      rw [insertionSort_eq_of_perm (sortVals mid) (sortVals kvs₂)
        (by rw [sortVals_eq_map, sortVals_eq_map]; exact hperm.map _) hnodup]

/-- C3 (amended) — Canonicalization determinism and emission order: for every
payload tree (objects with duplicate-free keys, as JavaScript objects always
are) and every tree that represents the same logical data with object keys
inserted in any other order, `stableStringify` produces byte-identical
output, and array element order is preserved; but a rebuilt object's keys
are emitted in its own-property enumeration order — array-index keys first
in ascending numeric order, then the remaining keys in UTF-16 code-unit
sorted order — not in plain lexicographically sorted order (refuted by
`canonicalization_lex_order_refuted` below). -/
theorem canonicalization_deterministic :
    (∀ a b, keysOk a = true → PermEquiv a b → stableStringify a = stableStringify b)
    ∧ (∀ kvs : List (String × Json), ∃ idx rest,
        objFields (sortRecursively (Json.obj kvs)) = idx ++ rest
        ∧ (∀ p ∈ idx, isArrayIndex p.1 = true)
        ∧ (∀ p ∈ rest, isArrayIndex p.1 = false)
        ∧ List.Sorted idxLe idx
        ∧ List.Sorted keyLe rest)
    ∧ (∀ xs : List Json, sortRecursively (Json.arr xs) = Json.arr (xs.map sortRecursively)) := by
  refine ⟨?_, ?_, ?_⟩
  · intro a b hok hpe
    rw [stableStringify, stableStringify,
      sort_eq_of_permEquiv (sizeOf a) a b le_rfl hpe hok]
  · intro kvs
    refine ⟨List.insertionSort idxLe
        ((List.insertionSort keyLe (sortVals kvs)).filter (fun p => isArrayIndex p.1)),
      (List.insertionSort keyLe (sortVals kvs)).filter (fun p => !isArrayIndex p.1),
      rfl, ?_, ?_, ?_, ?_⟩
    · intro p hp
      have hmem := (List.mem_insertionSort _).mp hp
      exact (List.mem_filter.mp hmem).2
    · intro p hp
      have hneg := (List.mem_filter.mp hp).2
      simpa using hneg
    · exact List.sorted_insertionSort idxLe _
    · exact List.Pairwise.filter _ (List.sorted_insertionSort keyLe (sortVals kvs))
  · intro xs
    rw [sortRecursively, sortElems_eq_map]

/-- Witness for `canonicalization_deterministic`: the two-key object built in
both insertion orders canonicalizes identically. -/
theorem canonicalization_deterministic_witness :
    keysOk (Json.obj [("b", .null), ("a", .str "x")]) = true
    ∧ stableStringify (Json.obj [("b", .null), ("a", .str "x")])
      = stableStringify (Json.obj [("a", .str "x"), ("b", .null)]) :=
  ⟨rfl,
   canonicalization_deterministic.1 _ _ rfl
     (PermEquiv.obj
       (PermEquivFields.cons "b" PermEquiv.null
         (PermEquivFields.cons "a" (PermEquiv.str "x") PermEquivFields.nil))
       (List.Perm.swap ("a", Json.str "x") ("b", Json.null) []))⟩

/-- Counterexample to the original C3 key-order conjunct: rebuilding an
object whose keys are `"10"` and `"9"` puts both in the array-index
enumeration range, so they are emitted in ascending numeric order
`"9","10"` — not in the lexicographically sorted order `"10","9"` — while
the canonical output is still independent of insertion order. -/
theorem canonicalization_lex_order_refuted :
    objFields (sortRecursively (Json.obj [("10", Json.null), ("9", Json.null)]))
      = [("9", Json.null), ("10", Json.null)]
    ∧ ¬ List.Sorted (fun x y : String => x ≤ y)
        ((objFields (sortRecursively
          (Json.obj [("10", Json.null), ("9", Json.null)]))).map Prod.fst)
    ∧ stableStringify (Json.obj [("10", Json.null), ("9", Json.null)])
      = stableStringify (Json.obj [("9", Json.null), ("10", Json.null)]) := by
  refine ⟨rfl, ?_, rfl⟩
  intro hsorted
  have hs₂ : List.Sorted (fun x y : String => x ≤ y) ["9", "10"] := hsorted
  have h₉ : ("9" : String) ≤ "10" := by
    cases hs₂ with
    | cons h₁ _ => exact h₁ "10" (List.mem_cons_self _ _)
  rw [String.le_iff_toList_le] at h₉
  exact absurd h₉ (by decide)
theorem hexDigit_inj_fin : ∀ a b : Fin 16, hexDigit a.val = hexDigit b.val → a = b := by
  decide

theorem hexDigit_inj (a b : Nat) (ha : a < 16) (hb : b < 16)
    (h : hexDigit a = hexDigit b) : a = b := by
  have := hexDigit_inj_fin ⟨a, ha⟩ ⟨b, hb⟩ h
  simpa using congrArg Fin.val this

theorem escPair_inj (c₁ c₂ x : Char) (h₁ : escPair c₁ x) (h₂ : escPair c₂ x) : c₁ = c₂ := by
  rcases h₁ with ⟨hc, hx⟩ | ⟨hc, hx⟩ | ⟨hc, hx⟩ | ⟨hc, hx⟩ | ⟨hc, hx⟩ | ⟨hc, hx⟩ | ⟨hc, hx⟩ <;>
    rcases h₂ with ⟨hd, hy⟩ | ⟨hd, hy⟩ | ⟨hd, hy⟩ | ⟨hd, hy⟩ | ⟨hd, hy⟩ | ⟨hd, hy⟩ | ⟨hd, hy⟩ <;>
    subst_vars <;> first | rfl | exact absurd hy (by decide)

theorem escPair_ne_u (c x : Char) (h : escPair c x) : x ≠ 'u' := by
  rcases h with ⟨hc, hx⟩ | ⟨hc, hx⟩ | ⟨hc, hx⟩ | ⟨hc, hx⟩ | ⟨hc, hx⟩ | ⟨hc, hx⟩ | ⟨hc, hx⟩ <;>
    (subst hx; decide)

theorem esc_forms (c : Char) :
    (∃ x, quoteChar c = ['\\', x] ∧ escPair c x)
    ∨ (quoteChar c = ['\\', 'u', '0', '0', hexDigit (c.toNat / 16), hexDigit (c.toNat % 16)]
        ∧ c.toNat < 32)
    ∨ (quoteChar c = [c] ∧ c ≠ '"' ∧ c ≠ '\\' ∧ ¬ c.toNat < 32) := by
  rw [quoteChar]
  split_ifs with h₁ h₂ h₃ h₄ h₅ h₆ h₇ h₈
  · exact Or.inl ⟨'"', rfl, Or.inl ⟨h₁, rfl⟩⟩
  · exact Or.inl ⟨'\\', rfl, Or.inr (Or.inl ⟨h₂, rfl⟩)⟩
  · exact Or.inl ⟨'b', rfl, Or.inr (Or.inr (Or.inl ⟨h₃, rfl⟩))⟩
  · exact Or.inl ⟨'t', rfl, Or.inr (Or.inr (Or.inr (Or.inl ⟨h₄, rfl⟩)))⟩
  · exact Or.inl ⟨'n', rfl, Or.inr (Or.inr (Or.inr (Or.inr (Or.inl ⟨h₅, rfl⟩))))⟩
  · exact Or.inl ⟨'f', rfl, Or.inr (Or.inr (Or.inr (Or.inr (Or.inr (Or.inl ⟨h₆, rfl⟩)))))⟩
  · exact Or.inl ⟨'r', rfl, Or.inr (Or.inr (Or.inr (Or.inr (Or.inr (Or.inr ⟨h₇, rfl⟩)))))⟩
  · exact Or.inr (Or.inl ⟨rfl, h₈⟩)
  · exact Or.inr (Or.inr ⟨rfl, h₁, h₂, h₈⟩)

theorem escPair_toNat_lt (c x : Char) (h : escPair c x) : c.toNat < 32 ∨ c = '"' ∨ c = '\\' := by
  rcases h with ⟨hc, hx⟩ | ⟨hc, hx⟩ | ⟨hc, hx⟩ | ⟨hc, hx⟩ | ⟨hc, hx⟩ | ⟨hc, hx⟩ | ⟨hc, hx⟩ <;>
    subst hc <;> first | (left; decide) | (right; left; rfl) | (right; right; rfl)

theorem quoteChar_cancel (c₁ c₂ : Char) (u₁ u₂ : List Char)
    (heq : quoteChar c₁ ++ u₁ = quoteChar c₂ ++ u₂) : c₁ = c₂ ∧ u₁ = u₂ := by
  rcases esc_forms c₁ with ⟨x₁, hq₁, hp₁⟩ | ⟨hq₁, hlt₁⟩ | ⟨hq₁, ha₁, hb₁, hc₁⟩ <;>
    rcases esc_forms c₂ with ⟨x₂, hq₂, hp₂⟩ | ⟨hq₂, hlt₂⟩ | ⟨hq₂, ha₂, hb₂, hc₂⟩ <;>
    rw [hq₁, hq₂] at heq <;>
    simp only [List.cons_append, List.nil_append, List.cons.injEq] at heq
  · obtain ⟨-, hx, hu⟩ := heq
    subst hx
    exact ⟨escPair_inj c₁ c₂ _ hp₁ hp₂, hu⟩
  · obtain ⟨-, hx, -⟩ := heq
    exact absurd hx (escPair_ne_u c₁ x₁ hp₁)
  · obtain ⟨hx, -⟩ := heq
    exact absurd hx.symm hb₂
  · obtain ⟨-, hx, -⟩ := heq
    exact absurd hx.symm (escPair_ne_u c₂ x₂ hp₂)
  · obtain ⟨-, -, -, -, hh₁, hh₂, hu⟩ := heq
    have hdiv := hexDigit_inj _ _ (by omega) (by omega) hh₁
    have hmod := hexDigit_inj _ _ (by omega) (by omega) hh₂
    exact ⟨char_toNat_inj _ _ (by omega), hu⟩
  · obtain ⟨hx, -⟩ := heq
    exact absurd hx.symm hb₂
  · obtain ⟨hx, -⟩ := heq
    exact absurd hx hb₁
  · obtain ⟨hx, -⟩ := heq
    exact absurd hx hb₁
  · obtain ⟨hx, hu⟩ := heq
    exact ⟨hx, hu⟩

theorem quoteChar_head (c : Char) : ∃ d ds, quoteChar c = d :: ds ∧ d ≠ '"' := by
  rcases esc_forms c with ⟨x, hq, -⟩ | ⟨hq, -⟩ | ⟨hq, ha, -, -⟩
  · exact ⟨'\\', _, hq, by decide⟩
  · exact ⟨'\\', _, hq, by decide⟩
  · exact ⟨c, [], hq, ha⟩

theorem quoteBody_cancel :
    ∀ (s₁ s₂ r₁ r₂ : List Char),
      quoteBody s₁ ++ '"' :: r₁ = quoteBody s₂ ++ '"' :: r₂ → s₁ = s₂ ∧ r₁ = r₂ := by
  intro s₁
  induction s₁ with
  | nil =>
    intro s₂ r₁ r₂ heq
    cases s₂ with
    | nil =>
      simp only [quoteBody, List.nil_append, List.cons.injEq, true_and] at heq
      exact ⟨rfl, heq⟩
    | cons c cs =>
      exfalso
      simp only [quoteBody, List.nil_append, List.append_assoc] at heq
      obtain ⟨d, ds, hd, hne⟩ := quoteChar_head c
      rw [hd, List.cons_append] at heq
      exact hne ((List.cons.injEq _ _ _ _).mp heq).1.symm
  | cons c₁ cs₁ ih =>
    intro s₂ r₁ r₂ heq
    cases s₂ with
    | nil =>
      exfalso
      simp only [quoteBody, List.nil_append, List.append_assoc] at heq
      obtain ⟨d, ds, hd, hne⟩ := quoteChar_head c₁
      rw [hd, List.cons_append] at heq
      exact hne ((List.cons.injEq _ _ _ _).mp heq).1
    | cons c₂ cs₂ =>
      simp only [quoteBody, List.append_assoc] at heq
      obtain ⟨hc, hrest⟩ := quoteChar_cancel c₁ c₂ _ _ heq
      obtain ⟨hcs, hr⟩ := ih cs₂ r₁ r₂ hrest
      exact ⟨by rw [hc, hcs], hr⟩

theorem quoteStr_cancel (s₁ s₂ : String) (u₁ u₂ : List Char)
    (heq : quoteStr s₁ ++ u₁ = quoteStr s₂ ++ u₂) : s₁ = s₂ ∧ u₁ = u₂ := by
  simp only [quoteStr, List.cons_append, List.append_assoc, List.nil_append,
    List.cons.injEq, true_and] at heq
  obtain ⟨hdata, hu⟩ := quoteBody_cancel _ _ _ _ heq
  exact ⟨String.ext hdata, hu⟩

theorem numRun_cancel :
    ∀ (xs ys s t : List Char),
      (∀ c ∈ xs, numChar c = true) → (∀ c ∈ ys, numChar c = true) →
      tailOk s = true → tailOk t = true →
      xs ++ s = ys ++ t → xs = ys ∧ s = t := by
  intro xs
  induction xs with
  | nil =>
    intro ys s t hxs hys hts htt heq
    cases ys with
    | nil => exact ⟨rfl, heq⟩
    | cons c cs =>
      exfalso
      rw [List.nil_append, List.cons_append] at heq
      have hc : numChar c = true := hys c (List.mem_cons_self _ _)
      rw [heq] at hts
      simp only [tailOk, Bool.or_eq_true, beq_iff_eq] at hts
      rcases hts with (hx | hx) | hx <;> (subst hx; exact absurd hc (by decide))
  | cons c₁ cs₁ ih =>
    intro ys s t hxs hys hts htt heq
    cases ys with
    | nil =>
      exfalso
      rw [List.nil_append, List.cons_append] at heq
      have hc : numChar c₁ = true := hxs c₁ (List.mem_cons_self _ _)
      rw [← heq] at htt
      simp only [tailOk, Bool.or_eq_true, beq_iff_eq] at htt
      rcases htt with (hx | hx) | hx <;> (subst hx; exact absurd hc (by decide))
    | cons c₂ cs₂ =>
      rw [List.cons_append, List.cons_append] at heq
      obtain ⟨hc, hrest⟩ := (List.cons.injEq _ _ _ _).mp heq
      obtain ⟨hcs, hst⟩ := ih cs₂ s t
        (fun c hmem => hxs c (List.mem_cons_of_mem _ hmem))
        (fun c hmem => hys c (List.mem_cons_of_mem _ hmem)) hts htt hrest
      exact ⟨by rw [hc, hcs], hst⟩

theorem headKind_of_numChar (c : Char) (hc : numChar c = true) : headKind c = 5 := by
  have h₁ : c ≠ 'n' := fun h => by rw [h] at hc; exact absurd hc (by decide)
  have h₂ : c ≠ 't' := fun h => by rw [h] at hc; exact absurd hc (by decide)
  have h₃ : c ≠ 'f' := fun h => by rw [h] at hc; exact absurd hc (by decide)
  have h₄ : c ≠ '"' := fun h => by rw [h] at hc; exact absurd hc (by decide)
  have h₅ : c ≠ '[' := fun h => by rw [h] at hc; exact absurd hc (by decide)
  have h₆ : c ≠ '\x7b' := fun h => by rw [h] at hc; exact absurd hc (by decide)
  rw [headKind, if_neg h₁, if_neg h₂, if_neg h₃, if_neg h₄, if_neg h₅, if_neg h₆, if_pos hc]

theorem emit_head (a : Json) (hw : jsonbOk a = true) :
    ∃ c cs, emit a = c :: cs ∧ headKind c = ctorKind a := by
  cases a with
  | null => exact ⟨'n', _, rfl, by simp [headKind, ctorKind]⟩
  | bool b =>
    cases b with
    | false => exact ⟨'f', _, rfl, by simp [headKind, ctorKind]⟩
    | true => exact ⟨'t', _, rfl, by simp [headKind, ctorKind]⟩
  | num m =>
    cases m with
    | nonFinite k => exact absurd hw (by simp [jsonbOk])
    | finite r =>
      rw [jsonbOk, numOk, Bool.and_eq_true] at hw
      rcases hr : r.data with _ | ⟨c, cs⟩
      · exfalso
        rw [hr] at hw
        simp at hw
      · refine ⟨c, cs, ?_, ?_⟩
        · rw [show emit (Json.num (JsNum.finite r)) = r.data from rfl, hr]
        · have hall := hw.2
          rw [hr] at hall
          rw [List.all_eq_true] at hall
          rw [headKind_of_numChar c (hall c (List.mem_cons_self _ _))]
          rfl
  | str s => exact ⟨'"', _, rfl, by simp [headKind, ctorKind]⟩
  | arr xs => exact ⟨'[', _, rfl, by simp [headKind, ctorKind]⟩
  | obj kvs => exact ⟨'\x7b', _, rfl, by simp [headKind, ctorKind]⟩
theorem tailOk_elems (xs : List Json) (s : List Char) :
    tailOk (emitElemsTail xs ++ ']' :: s) = true := by
  cases xs with
  | nil => rfl
  | cons x xs => rfl

theorem tailOk_fields (kvs : List (String × Json)) (s : List Char) :
    tailOk (emitFieldsTail kvs ++ '\x7d' :: s) = true := by
  cases kvs with
  | nil => rfl
  | cons p kvs =>
    obtain ⟨k, v⟩ := p
    rfl

theorem elemsTailSplit (n : Nat)
    (ih : ∀ (a b : Json) (s t : List Char), sizeOf a ≤ n → jsonbOk a = true →
      jsonbOk b = true → tailOk s = true → tailOk t = true →
      emit a ++ s = emit b ++ t → a = b ∧ s = t) :
    ∀ (xs ys : List Json) (s t : List Char), sizeOf xs ≤ n →
      elemsOk xs = true → elemsOk ys = true →
      emitElemsTail xs ++ ']' :: s = emitElemsTail ys ++ ']' :: t →
      xs = ys ∧ s = t := by
  intro xs
  induction xs with
  | nil =>
    intro ys s t hsz hwx hwy heq
    cases ys with
    | nil =>
      simp only [emitElemsTail, List.nil_append, List.cons.injEq, true_and] at heq
      exact ⟨rfl, heq⟩
    | cons y ys =>
      exfalso
      simp only [emitElemsTail, List.nil_append, List.cons_append, List.cons.injEq] at heq
      exact absurd heq.1 (by decide)
  | cons x xs ihl =>
    intro ys s t hsz hwx hwy heq
    cases ys with
    | nil =>
      exfalso
      simp only [emitElemsTail, List.nil_append, List.cons_append, List.cons.injEq] at heq
      exact absurd heq.1 (by decide)
    | cons y ys =>
      simp only [emitElemsTail, List.cons_append, List.append_assoc, List.cons.injEq,
        true_and] at heq
      rw [elemsOk, Bool.and_eq_true] at hwx
      rw [elemsOk, Bool.and_eq_true] at hwy
      have hszx : sizeOf x ≤ n := by
        simp only [List.cons.sizeOf_spec] at hsz
        omega
      obtain ⟨hxy, hrest⟩ := ih x y _ _ hszx hwx.1 hwy.1
        (tailOk_elems xs s) (tailOk_elems ys t) heq
      have hszxs : sizeOf xs ≤ n := by
        simp only [List.cons.sizeOf_spec] at hsz
        omega
      obtain ⟨hlist, hst⟩ := ihl ys s t hszxs hwx.2 hwy.2 hrest
      exact ⟨by rw [hxy, hlist], hst⟩

theorem ctorKind_le (y : Json) : ctorKind y ≤ 5 := by
  rcases y with _ | b | m | s | xs | kvs <;> simp [ctorKind]

theorem elemsSplit (n : Nat)
    (ih : ∀ (a b : Json) (s t : List Char), sizeOf a ≤ n → jsonbOk a = true →
      jsonbOk b = true → tailOk s = true → tailOk t = true →
      emit a ++ s = emit b ++ t → a = b ∧ s = t) :
    ∀ (xs ys : List Json) (s t : List Char), sizeOf xs ≤ n →
      elemsOk xs = true → elemsOk ys = true →
      emitElems xs ++ ']' :: s = emitElems ys ++ ']' :: t →
      xs = ys ∧ s = t := by
  intro xs ys s t hsz hwx hwy heq
  cases xs with
  | nil =>
    cases ys with
    | nil =>
      simp only [emitElems, List.nil_append, List.cons.injEq, true_and] at heq
      exact ⟨rfl, heq⟩
    | cons y ys =>
      exfalso
      simp only [emitElems, List.nil_append, List.append_assoc] at heq
      rw [elemsOk, Bool.and_eq_true] at hwy
      obtain ⟨c, cs, he, hk⟩ := emit_head y hwy.1
      rw [he, List.cons_append] at heq
      have hc : (']' : Char) = c := ((List.cons.injEq _ _ _ _).mp heq).1
      rw [← hc] at hk
      have h6 : headKind ']' = 6 := by decide
      have hle := ctorKind_le y
      omega
  | cons x xs =>
    cases ys with
    | nil =>
      exfalso
      simp only [emitElems, List.nil_append, List.append_assoc] at heq
      rw [elemsOk, Bool.and_eq_true] at hwx
      obtain ⟨c, cs, he, hk⟩ := emit_head x hwx.1
      rw [he, List.cons_append] at heq
      have hc : c = ']' := ((List.cons.injEq _ _ _ _).mp heq).1
      rw [hc] at hk
      have h6 : headKind ']' = 6 := by decide
      have hle := ctorKind_le x
      omega
    | cons y ys =>
      simp only [emitElems, List.append_assoc] at heq
      rw [elemsOk, Bool.and_eq_true] at hwx
      rw [elemsOk, Bool.and_eq_true] at hwy
      have hszx : sizeOf x ≤ n := by
        simp only [List.cons.sizeOf_spec] at hsz
        omega
      obtain ⟨hxy, hrest⟩ := ih x y _ _ hszx hwx.1 hwy.1
        (tailOk_elems xs s) (tailOk_elems ys t) heq
      have hszxs : sizeOf xs ≤ n := by
        simp only [List.cons.sizeOf_spec] at hsz
        omega
      obtain ⟨hlist, hst⟩ := elemsTailSplit n ih xs ys s t hszxs hwx.2 hwy.2 hrest
      exact ⟨by rw [hxy, hlist], hst⟩

theorem fieldsTailSplit (n : Nat)
    (ih : ∀ (a b : Json) (s t : List Char), sizeOf a ≤ n → jsonbOk a = true →
      jsonbOk b = true → tailOk s = true → tailOk t = true →
      emit a ++ s = emit b ++ t → a = b ∧ s = t) :
    ∀ (ps qs : List (String × Json)) (s t : List Char), sizeOf ps ≤ n →
      fieldsOk ps = true → fieldsOk qs = true →
      emitFieldsTail ps ++ '\x7d' :: s = emitFieldsTail qs ++ '\x7d' :: t →
      ps = qs ∧ s = t := by
  intro ps
  induction ps with
  | nil =>
    intro qs s t hsz hwp hwq heq
    cases qs with
    | nil =>
      simp only [emitFieldsTail, List.nil_append, List.cons.injEq, true_and] at heq
      exact ⟨rfl, heq⟩
    | cons q qs =>
      exfalso
      obtain ⟨k, v⟩ := q
      simp only [emitFieldsTail, List.nil_append, List.cons_append, List.cons.injEq] at heq
      exact absurd heq.1 (by decide)
  | cons p ps ihl =>
    intro qs s t hsz hwp hwq heq
    obtain ⟨k₁, v₁⟩ := p
    cases qs with
    | nil =>
      exfalso
      simp only [emitFieldsTail, List.nil_append, List.cons_append, List.cons.injEq] at heq
      exact absurd heq.1 (by decide)
    | cons q qs =>
      obtain ⟨k₂, v₂⟩ := q
      simp only [emitFieldsTail, List.cons_append, List.append_assoc, List.cons.injEq,
        true_and] at heq
      obtain ⟨hk, hrest⟩ := quoteStr_cancel k₁ k₂ _ _ heq
      have hrest₂ : emit v₁ ++ (emitFieldsTail ps ++ '\x7d' :: s)
          = emit v₂ ++ (emitFieldsTail qs ++ '\x7d' :: t) :=
        ((List.cons.injEq _ _ _ _).mp hrest).2
      rw [fieldsOk, Bool.and_eq_true] at hwp
      rw [fieldsOk, Bool.and_eq_true] at hwq
      have hszv : sizeOf v₁ ≤ n := by
        simp only [List.cons.sizeOf_spec, Prod.mk.sizeOf_spec] at hsz
        omega
      obtain ⟨hv, htails⟩ := ih v₁ v₂ _ _ hszv hwp.1 hwq.1
        (tailOk_fields ps s) (tailOk_fields qs t) hrest₂
      have hszps : sizeOf ps ≤ n := by
        simp only [List.cons.sizeOf_spec, Prod.mk.sizeOf_spec] at hsz
        omega
      obtain ⟨hlist, hst⟩ := ihl qs s t hszps hwp.2 hwq.2 htails
      exact ⟨by rw [hk, hv, hlist], hst⟩

theorem fieldsSplit (n : Nat)
    (ih : ∀ (a b : Json) (s t : List Char), sizeOf a ≤ n → jsonbOk a = true →
      jsonbOk b = true → tailOk s = true → tailOk t = true →
      emit a ++ s = emit b ++ t → a = b ∧ s = t) :
    ∀ (ps qs : List (String × Json)) (s t : List Char), sizeOf ps ≤ n →
      fieldsOk ps = true → fieldsOk qs = true →
      emitFields ps ++ '\x7d' :: s = emitFields qs ++ '\x7d' :: t →
      ps = qs ∧ s = t := by
  intro ps qs s t hsz hwp hwq heq
  cases ps with
  | nil =>
    cases qs with
    | nil =>
      simp only [emitFields, List.nil_append, List.cons.injEq, true_and] at heq
      exact ⟨rfl, heq⟩
    | cons q qs =>
      exfalso
      obtain ⟨k, v⟩ := q
      simp only [emitFields, List.nil_append, quoteStr, List.cons_append,
        List.cons.injEq] at heq
      exact absurd heq.1 (by decide)
  | cons p ps =>
    obtain ⟨k₁, v₁⟩ := p
    cases qs with
    | nil =>
      exfalso
      simp only [emitFields, List.nil_append, quoteStr, List.cons_append,
        List.cons.injEq] at heq
      exact absurd heq.1 (by decide)
    | cons q qs =>
      obtain ⟨k₂, v₂⟩ := q
      simp only [emitFields, List.append_assoc] at heq
      obtain ⟨hk, hrest⟩ := quoteStr_cancel k₁ k₂ _ _ heq
      have hrest₂ : emit v₁ ++ (emitFieldsTail ps ++ '\x7d' :: s)
          = emit v₂ ++ (emitFieldsTail qs ++ '\x7d' :: t) :=
        ((List.cons.injEq _ _ _ _).mp hrest).2
      rw [fieldsOk, Bool.and_eq_true] at hwp
      rw [fieldsOk, Bool.and_eq_true] at hwq
      have hszv : sizeOf v₁ ≤ n := by
        simp only [List.cons.sizeOf_spec, Prod.mk.sizeOf_spec] at hsz
        omega
      obtain ⟨hv, htails⟩ := ih v₁ v₂ _ _ hszv hwp.1 hwq.1
        (tailOk_fields ps s) (tailOk_fields qs t) hrest₂
      have hszps : sizeOf ps ≤ n := by
        simp only [List.cons.sizeOf_spec, Prod.mk.sizeOf_spec] at hsz
        omega
      obtain ⟨hlist, hst⟩ := fieldsTailSplit n ih ps qs s t hszps hwp.2 hwq.2 htails
      exact ⟨by rw [hk, hv, hlist], hst⟩

theorem emit_cancel :
    ∀ (n : Nat) (a b : Json) (s t : List Char),
      sizeOf a ≤ n → jsonbOk a = true → jsonbOk b = true →
      tailOk s = true → tailOk t = true →
      emit a ++ s = emit b ++ t → a = b ∧ s = t := by
  intro n
  induction n with
  | zero =>
    intro a b s t hsz
    exfalso
    rcases a with _ | b₁ | m | s₁ | xs | kvs <;> simp at hsz
  | succ n ih =>
    intro a b s t hsz hwa hwb hts htt heq
    have hctor : ctorKind a = ctorKind b := by
      obtain ⟨c₁, cs₁, he₁, hk₁⟩ := emit_head a hwa
      obtain ⟨c₂, cs₂, he₂, hk₂⟩ := emit_head b hwb
      rw [he₁, he₂, List.cons_append, List.cons_append] at heq
      obtain ⟨hc, -⟩ := (List.cons.injEq _ _ _ _).mp heq
      rw [← hk₁, ← hk₂, hc]
    rcases a with _ | b₁ | m₁ | s₁ | xs | kvs <;>
      rcases b with _ | b₂ | m₂ | s₂ | ys | kvs₂ <;>
      first
      | (exfalso; revert hctor; simp [ctorKind]; done)
      | clear hctor
    · exact ⟨rfl, by simpa using heq⟩
    · cases b₁ <;> cases b₂ <;>
        first
        | exact ⟨rfl, by simpa [emit] using heq⟩
        | (exfalso; simpa [emit] using heq)
    · rcases m₁ with r₁ | k₁
      · rcases m₂ with r₂ | k₂
        · simp only [emit] at heq
          rw [jsonbOk, numOk, Bool.and_eq_true, List.all_eq_true] at hwa
          rw [jsonbOk, numOk, Bool.and_eq_true, List.all_eq_true] at hwb
          obtain ⟨hdata, hst⟩ := numRun_cancel r₁.data r₂.data s t
            (fun c hc => hwa.2 c hc) (fun c hc => hwb.2 c hc) hts htt heq
          exact ⟨by rw [String.ext hdata], hst⟩
        · exact absurd hwb (by simp [jsonbOk])
      · exact absurd hwa (by simp [jsonbOk])
    · simp only [emit] at heq
      obtain ⟨hs, hst⟩ := quoteStr_cancel s₁ s₂ s t heq
      exact ⟨by rw [hs], hst⟩
    · simp only [emit, List.cons_append, List.append_assoc, List.nil_append,
        List.cons.injEq, true_and] at heq
      rw [jsonbOk] at hwa
      rw [jsonbOk] at hwb
      have hszxs : sizeOf xs ≤ n := by
        simp only [Json.arr.sizeOf_spec] at hsz
        omega
      obtain ⟨hlist, hst⟩ := elemsSplit n ih xs ys s t hszxs hwa hwb heq
      exact ⟨by rw [hlist], hst⟩
    · simp only [emit, List.cons_append, List.append_assoc, List.nil_append,
        List.cons.injEq, true_and] at heq
      rw [jsonbOk] at hwa
      rw [jsonbOk] at hwb
      have hszkvs : sizeOf kvs ≤ n := by
        simp only [Json.obj.sizeOf_spec] at hsz
        omega
      obtain ⟨hlist, hst⟩ := fieldsSplit n ih kvs kvs₂ s t hszkvs hwa hwb heq
      exact ⟨by rw [hlist], hst⟩

theorem emit_inj (a b : Json) (hwa : jsonbOk a = true) (hwb : jsonbOk b = true)
    (heq : emit a = emit b) : a = b :=
  (emit_cancel (sizeOf a) a b [] [] le_rfl hwa hwb rfl rfl
    (by rw [List.append_nil, List.append_nil, heq])).1

theorem jsonStringify_inj (a b : Json) (hwa : jsonbOk a = true) (hwb : jsonbOk b = true)
    (heq : jsonStringify a = jsonStringify b) : a = b :=
  emit_inj a b hwa hwb (congrArg String.data heq)

theorem noteSnapshot_jsonbOk (n : Note) (fb : String) :
    jsonbOk (noteSnapshotJson n fb) = true := rfl

theorem predSnapshot_jsonbOk (pid : String) (p : Pred)
    (hi : jsonbOk p.input = true) (hr : jsonbOk (Json.num p.risk_percentage) = true)
    (hs : jsonbOk (Json.num p.health_score) = true) :
    jsonbOk (predSnapshotJson pid p) = true := by
  have hstep : jsonbOk (predSnapshotJson pid p)
      = (jsonbOk p.input
          && ((jsonbOk (Json.num p.risk_percentage) && (true && true))
            && (jsonbOk (Json.num p.health_score) && (true && (true && true))))) := rfl
  rw [hstep, hi, hr, hs]
  rfl

/-- C2 — Tamper detection: for a ledger entry anchored against the original
payload (its stored hash is the hash of the original reconstructed snapshot),
if the owning prediction row (respectively note row) now on record yields a
reconstructed snapshot that differs from the original in any field, the
verifier terminates in `invalid`. Hash collision-freedom is the spec's
assumption, taken as injectivity of `h`; snapshots are JSON-representable
(`jsonbOk`), as database rows always are. -/
theorem tamper_detection (h : String → String) (hinj : Function.Injective h)
    (env : Env) (txId uid : String) (role : Option AppRole) (tx : Tx) :
    (∀ pid p₀ p₁,
      fetchTxWithRls env txId = some tx →
      tx.prediction_id = some pid →
      env.fetchPred pid = some p₁ →
      tx.payload_hash = h (buildPredictionPayload tx p₀) →
      jsonbOk (predSnapshotJson tx.patient_id p₀) = true →
      jsonbOk (predSnapshotJson tx.patient_id p₁) = true →
      predSnapshotJson tx.patient_id p₁ ≠ predSnapshotJson tx.patient_id p₀ →
      (run h env txId (some uid) role).status = .invalid)
    ∧ (∀ nid n₀ n₁,
      fetchTxWithRls env txId = some tx →
      tx.prediction_id = none →
      tx.note_id = some nid →
      env.fetchNote nid = some n₁ →
      tx.payload_hash = h (buildNotePayload n₀ tx.created_at) →
      noteSnapshotJson n₁ tx.created_at ≠ noteSnapshotJson n₀ tx.created_at →
      (run h env txId (some uid) role).status = .invalid) := by
  constructor
  · intro pid p₀ p₁ hfetch hpid hpred hhash hw₀ hw₁ hne
    simp only [run, hfetch, hpid, hpred]
    rw [if_neg]
    intro habs
    rw [hhash] at habs
    have hpay := hinj habs
    have htree : predSnapshotJson tx.patient_id p₁ = predSnapshotJson tx.patient_id p₀ :=
      jsonStringify_inj _ _ hw₁ hw₀ hpay
    exact hne htree
  · intro nid n₀ n₁ hfetch hpid hnid hnote hhash hne
    simp only [run, hfetch, hpid, hnid, hnote]
    rw [if_neg]
    intro habs
    rw [hhash] at habs
    have hpay := hinj habs
    have htree : noteSnapshotJson n₁ tx.created_at = noteSnapshotJson n₀ tx.created_at :=
      jsonStringify_inj _ _ (noteSnapshot_jsonbOk n₁ _) (noteSnapshot_jsonbOk n₀ _) hpay
    exact hne htree

/-- Witness for `tamper_detection`: an anchored prediction whose
`risk_category` was mutated from `"Low"` to `"High"` after anchoring. -/
theorem tamper_detection_witness :
    (run id
      ⟨[⟨"tx1", jsonStringify (predSnapshotJson "pat" ⟨"t0", .finite "24", "Low", .finite "76", .null⟩),
          none, "t0", some "pr1", none, none, "pat"⟩],
       fun _ => true, false, [],
       fun i => if i == "pr1" then some ⟨"t0", .finite "24", "High", .finite "76", .null⟩ else none,
       fun _ => none⟩
      "tx1" (some "pat") (some .patient)).status = .invalid :=
  (tamper_detection id Function.injective_id
    ⟨[⟨"tx1", jsonStringify (predSnapshotJson "pat" ⟨"t0", .finite "24", "Low", .finite "76", .null⟩),
        none, "t0", some "pr1", none, none, "pat"⟩],
     fun _ => true, false, [],
     fun i => if i == "pr1" then some ⟨"t0", .finite "24", "High", .finite "76", .null⟩ else none,
     fun _ => none⟩
    "tx1" "pat" (some .patient)
    ⟨"tx1", jsonStringify (predSnapshotJson "pat" ⟨"t0", .finite "24", "Low", .finite "76", .null⟩),
      none, "t0", some "pr1", none, none, "pat"⟩).1
    "pr1" ⟨"t0", .finite "24", "Low", .finite "76", .null⟩
    ⟨"t0", .finite "24", "High", .finite "76", .null⟩
    rfl rfl rfl rfl rfl rfl
    (by simp [predSnapshotJson])

/-- C1 — Round-trip verification of a prediction FAILS on the code: the write
path hashes `at := new Date().toISOString()` (the client clock string
`clientNowIso`), while the verifier reconstructs `at := pred.created_at` (the
database `now()` default, `dbNow`). Whenever those two strings differ — which
is the case in practice, both in value and in format — verifying the freshly
anchored, never-altered prediction as an authorized requester yields
`invalid`, not `valid` as the claim states. -/
theorem prediction_roundtrip_invalid
    (h : String → String) (hinj : Function.Injective h)
    (userId : String) (input : Json) (risk : JsNum) (category : String) (score : JsNum)
    (clientNowIso dbNow predId newTxId uid : String) (role : Option AppRole)
    (sd : Bool) (co : List ConsentRow)
    (hi : jsonbOk input = true)
    (hr : jsonbOk (Json.num risk) = true)
    (hs : jsonbOk (Json.num score) = true)
    (hne : clientNowIso ≠ dbNow) :
    (run h
      ⟨(savePrediction h [] userId input risk category score clientNowIso dbNow predId newTxId).store,
       fun _ => true, sd, co,
       fun i => if i == predId
         then some (savePrediction h [] userId input risk category score clientNowIso dbNow predId
           newTxId).predRow
         else none,
       fun _ => none⟩
      newTxId (some uid) role).status = .invalid := by
  have hfetch : fetchTxWithRls
      ⟨(savePrediction h [] userId input risk category score clientNowIso dbNow predId newTxId).store,
       fun _ => true, sd, co,
       fun i => if i == predId
         then some (savePrediction h [] userId input risk category score clientNowIso dbNow predId
           newTxId).predRow
         else none,
       fun _ => none⟩ newTxId
      = some (savePrediction h [] userId input risk category score clientNowIso dbNow predId
          newTxId).txRow := by
    simp [fetchTxWithRls, savePrediction, List.find?]
  have hpid : (savePrediction h [] userId input risk category score clientNowIso dbNow predId
      newTxId).txRow.prediction_id = some predId := rfl
  have hpred : (fun i => if i == predId
      then some (savePrediction h [] userId input risk category score clientNowIso dbNow predId
        newTxId).predRow
      else none) predId
      = some (savePrediction h [] userId input risk category score clientNowIso dbNow predId
          newTxId).predRow := by
    simp
  simp only [run, hfetch, hpid, hpred]
  rw [if_neg]
  intro habs
  have habs₂ : h (jsonStringify (predSnapshotJson userId
        ⟨dbNow, risk, category, score, input⟩))
      = h (jsonStringify (savePredictionPayloadJson input risk category score clientNowIso
        userId)) := habs
  have hpay := hinj habs₂
  have hw₁ : jsonbOk (predSnapshotJson userId (⟨dbNow, risk, category, score, input⟩ : Pred))
      = true := predSnapshot_jsonbOk userId _ hi hr hs
  have hw₂ : jsonbOk (savePredictionPayloadJson input risk category score clientNowIso userId)
      = true := predSnapshot_jsonbOk userId (⟨clientNowIso, risk, category, score, input⟩ : Pred)
    hi hr hs
  have htree := jsonStringify_inj _ _ hw₁ hw₂ hpay
  simp only [predSnapshotJson, savePredictionPayloadJson, Json.obj.injEq, List.cons.injEq,
    Prod.mk.injEq, Json.str.injEq, true_and, and_true] at htree
  exact hne htree.symm

/-- Witness for `prediction_roundtrip_invalid`: the identity digest, the
spec's example prediction, a client ISO timestamp and a differing database
timestamp. -/
theorem prediction_roundtrip_invalid_witness :
    (run id
      ⟨(savePrediction id [] "pat" (Json.obj [("heart_rate", .num (.finite "76"))])
          (.finite "24") "Low" (.finite "76")
          "2026-01-20T08:14:39.123Z" "2026-01-20T08:14:39.250111+00:00"
          "pred1" "tx1").store,
       fun _ => true, false, [],
       fun i => if i == "pred1"
         then some (savePrediction id [] "pat" (Json.obj [("heart_rate", .num (.finite "76"))])
           (.finite "24") "Low" (.finite "76")
           "2026-01-20T08:14:39.123Z" "2026-01-20T08:14:39.250111+00:00"
           "pred1" "tx1").predRow
         else none,
       fun _ => none⟩
      "tx1" (some "pat") (some .patient)).status = .invalid :=
  prediction_roundtrip_invalid id Function.injective_id
    "pat" (Json.obj [("heart_rate", .num (.finite "76"))])
    (.finite "24") "Low" (.finite "76")
    "2026-01-20T08:14:39.123Z" "2026-01-20T08:14:39.250111+00:00"
    "pred1" "tx1" "pat" (some .patient) false []
    rfl rfl rfl (by decide)

end WellspringShield
